import Mathlib

/-!
# NBT codec (ingotmc/nbt): shallow embedding and verified properties

The Go package decodes a tag-based binary tree format from an `io.Reader`
and encodes it to an `io.Writer`.  The embedding below follows `nbt.go`,
`read.go` and `write.go` function by function.

Modelling conventions
* A byte is a `Nat` (real bytes are `< 256`); an input stream is the list of
  bytes not yet consumed, an output stream the list of bytes written so far.
* The reader is an in-memory reader: `Read` delivers the bytes that are left
  and reports `EOF` exactly when none is left.  The writer is an in-memory
  buffer whose `Write` always succeeds.
* A Go `interface{}` value is a `Value`; fixed-width integers are `Nat`/`Int`
  with explicit reduction modulo `2^w`; `int` and `uint` are 64 bits wide;
  floats are their IEEE bit patterns.
* A Go function returning `(interface{}, error)` returns an `Outcome`, which
  also records the input left unread; a runtime panic is `Outcome.panic`.
* `readFuncFactory` is indexed by a nesting budget; `Parse` supplies the
  length of the input, which no nesting can exceed.
-/

namespace NBT

/-! ## Data model (`nbt.go`) -/

/-- One byte of a stream. -/
abbrev Byte := Nat

/-- Input not yet consumed by the reader. -/
abbrev Stream := List Byte

/-- A Go string: a sequence of bytes. -/
abbrev GoString := List Byte

/-- Tag identifiers, `nbt.go` lines 12-26. -/
abbrev TagEnd : Nat := 0
abbrev TagByte : Nat := 1
abbrev TagShort : Nat := 2
abbrev TagInt : Nat := 3
abbrev TagLong : Nat := 4
abbrev TagFloat : Nat := 5
abbrev TagDouble : Nat := 6
abbrev TagByteArray : Nat := 7
abbrev TagString : Nat := 8
abbrev TagList : Nat := 9
abbrev TagCompound : Nat := 10
abbrev TagIntArray : Nat := 11
abbrev TagLongArray : Nat := 12

/-- Go values of type `interface{}` that the codec meets.  `compound` is the
map type `Compound` (an association list; the list order is the order in which
the runtime iterates the map), `namedList` is the named type `List`, `list` is
`[]interface{}`.  `nil` is the nil interface and `bool` stands for a type that
`encodeFactory` has no case for. -/
inductive Value where
  | nil : Value
  | bool (b : Bool) : Value
  | compound (fields : List (GoString × Value)) : Value
  | namedList (xs : List Value) : Value
  | list (xs : List Value) : Value
  | uint8 (x : Nat) : Value
  | int8 (x : Int) : Value
  | uint16 (x : Nat) : Value
  | int16 (x : Int) : Value
  | uint32 (x : Nat) : Value
  | int32 (x : Int) : Value
  | uint64 (x : Nat) : Value
  | int64 (x : Int) : Value
  | int (x : Int) : Value
  | uint (x : Nat) : Value
  | float32 (bits : Nat) : Value
  | float64 (bits : Nat) : Value
  | bytes (xs : List Nat) : Value
  | uint32s (xs : List Nat) : Value
  | int32s (xs : List Int) : Value
  | uint64s (xs : List Nat) : Value
  | int64s (xs : List Int) : Value
  | uints (xs : List Nat) : Value
  | ints (xs : List Int) : Value
  | string (s : GoString) : Value

instance : Inhabited Value := ⟨Value.nil⟩

/-- The fields of a `Compound`. -/
abbrev Fields := List (GoString × Value)

/-- Errors the package can return. -/
inductive Error where
  | EOF : Error
  | ErrUnexpectedEOF : Error
  | notInCompound : Error
  | parseNil : Error
  | rfNil : Error
  deriving DecidableEq, Repr

/-- Result of a Go call `(value, error)` on a reader: the value, the error
(`none` is a nil error) and the input left unread; or a runtime panic; or
`stuck` when the nesting budget of the model is exhausted. -/
inductive Outcome (α : Type) where
  | ret (val : α) (err : Option Error) (rest : Stream) : Outcome α
  | panic : Outcome α
  | stuck : Outcome α

/-- Type `readFunc` of `nbt.go`. -/
abbrev ReadFunc := Stream → Outcome Value

/-! ## Primitive readers (`read.go`) -/

/-- Big-endian value of a byte sequence. -/
def beNat : List Byte → Nat
  | [] => 0
  | b :: bs => b * 256 ^ bs.length + beNat bs

/-- Conversion of an unsigned `w`-bit pattern to the signed type of that width. -/
def toSigned (w : Nat) (u : Nat) : Int :=
  if u % 2 ^ w < 2 ^ (w - 1) then ((u % 2 ^ w : Nat) : Int)
  else ((u % 2 ^ w : Nat) : Int) - ((2 ^ w : Nat) : Int)

/-- Call `io.ReadFull(r, buf)` with `len(buf) = n`: the buffer afterwards
(zero where nothing was read), the error and the input left. -/
def readFull (n : Nat) (s : Stream) : List Byte × Option Error × Stream :=
  if n = 0 then ([], none, s)
  else if n ≤ s.length then (s.take n, none, s.drop n)
  else if s = [] then (List.replicate n 0, some Error.EOF, [])
  else (s ++ List.replicate (n - s.length) 0, some Error.ErrUnexpectedEOF, [])

/-- Call `binary.Read(r, binary.BigEndian, &x)` for a fixed-width `x` of `n`
bytes that holds zero: the unsigned bit pattern of `x` afterwards (unchanged
when the read fails), the error and the input left. -/
def binaryRead (n : Nat) (s : Stream) : Nat × Option Error × Stream :=
  match readFull n s with
  | (bs, none, rest) => (beNat bs, none, rest)
  | (_, some e, rest) => (0, some e, rest)

/-- Function `readByte`, `read.go` lines 9-13. -/
def readByte : ReadFunc := fun s =>
  match s with
  | [] => Outcome.ret (Value.uint8 0) (some Error.EOF) []
  | b :: rest => Outcome.ret (Value.uint8 b) none rest

/-- Function `readShort`. -/
def readShort : ReadFunc := fun s =>
  match binaryRead 2 s with
  | (u, err, rest) => Outcome.ret (Value.int16 (toSigned 16 u)) err rest

/-- Function `readInt`. -/
def readInt : ReadFunc := fun s =>
  match binaryRead 4 s with
  | (u, err, rest) => Outcome.ret (Value.int32 (toSigned 32 u)) err rest

/-- Function `readLong`. -/
def readLong : ReadFunc := fun s =>
  match binaryRead 8 s with
  | (u, err, rest) => Outcome.ret (Value.int64 (toSigned 64 u)) err rest

/-- Function `readFloat`; the value is the bit pattern of the float32. -/
def readFloat : ReadFunc := fun s =>
  match binaryRead 4 s with
  | (u, err, rest) => Outcome.ret (Value.float32 u) err rest

/-- Function `readDouble`; the value is the bit pattern of the float64. -/
def readDouble : ReadFunc := fun s =>
  match binaryRead 8 s with
  | (u, err, rest) => Outcome.ret (Value.float64 u) err rest

/-- Function `readByteArray`, `read.go` lines 49-58.  `make` panics on a
negative length. -/
def readByteArray : ReadFunc := fun s =>
  match readInt s with
  | Outcome.ret (Value.int32 l) err rest =>
    match err with
    | some e => Outcome.ret Value.nil (some e) rest
    | none =>
      if l < 0 then Outcome.panic
      else
        match readFull l.toNat rest with
        | (buf, err2, rest2) => Outcome.ret (Value.bytes buf) err2 rest2
  | _ => Outcome.panic

/-- Function `readString`, `read.go` lines 60-69. -/
def readString : ReadFunc := fun s =>
  match readShort s with
  | Outcome.ret length err rest =>
    match err with
    | some e => Outcome.ret Value.nil (some e) rest
    | none =>
      match length with
      | Value.int16 x =>
        match readFull (x % 65536).toNat rest with
        | (buf, err2, rest2) => Outcome.ret (Value.string buf) err2 rest2
      | _ => Outcome.panic
  | _ => Outcome.panic

/-- Loop of `readIntArray`: `n` elements still to read, `acc` already read. -/
def readIntArrayLoop : Nat → Stream → List Int → Outcome Value
  | 0, s, acc => Outcome.ret (Value.int32s acc) none s
  | n + 1, s, acc =>
    match readInt s with
    | Outcome.ret v err rest =>
      match err with
      | some e => Outcome.ret (Value.int32s (acc ++ List.replicate (n + 1) 0)) (some e) rest
      | none =>
        match v with
        | Value.int32 x => readIntArrayLoop n rest (acc ++ [x])
        | _ => Outcome.panic
    | _ => Outcome.panic

/-- Function `readIntArray`, `read.go` lines 71-87. -/
def readIntArray : ReadFunc := fun s =>
  match readInt s with
  | Outcome.ret length err rest =>
    match err with
    | some e => Outcome.ret Value.nil (some e) rest
    | none =>
      match length with
      | Value.int32 l => if l < 0 then Outcome.panic else readIntArrayLoop l.toNat rest []
      | _ => Outcome.panic
  | _ => Outcome.panic

/-- Loop of `readLongArray`. -/
def readLongArrayLoop : Nat → Stream → List Int → Outcome Value
  | 0, s, acc => Outcome.ret (Value.int64s acc) none s
  | n + 1, s, acc =>
    match readLong s with
    | Outcome.ret v err rest =>
      match err with
      | some e => Outcome.ret (Value.int64s (acc ++ List.replicate (n + 1) 0)) (some e) rest
      | none =>
        match v with
        | Value.int64 x => readLongArrayLoop n rest (acc ++ [x])
        | _ => Outcome.panic
    | _ => Outcome.panic

/-- Function `readLongArray`, `read.go` lines 89-105. -/
def readLongArray : ReadFunc := fun s =>
  match readInt s with
  | Outcome.ret length err rest =>
    match err with
    | some e => Outcome.ret Value.nil (some e) rest
    | none =>
      match length with
      | Value.int32 l => if l < 0 then Outcome.panic else readLongArrayLoop l.toNat rest []
      | _ => Outcome.panic
  | _ => Outcome.panic

/-! ## Container readers (`read.go`) -/

/-- Assignment `out[name] = value` on a map. -/
def Fields.set : Fields → GoString → Value → Fields
  | [], k, v => [(k, v)]
  | (k', v') :: rest, k, v =>
    if k' = k then (k, v) :: rest else (k', v') :: Fields.set rest k v

/-- Function `compoundWrapRead`, `read.go` lines 136-152.  The result is the
`compoundField` struct, or `none` for the nil interface. -/
def compoundWrapRead (rf : ReadFunc) : Stream → Outcome (Option (GoString × Value)) := fun s =>
  match readString s with
  | Outcome.ret n err rest =>
    match err with
    | some e => Outcome.ret none (some e) rest
    | none =>
      match n with
      | Value.string name =>
        match rf rest with
        | Outcome.ret v err2 rest2 =>
          match err2 with
          | some e => Outcome.ret none (some e) rest2
          | none => Outcome.ret (some (name, v)) none rest2
        | Outcome.panic => Outcome.panic
        | Outcome.stuck => Outcome.stuck
      | _ => Outcome.panic
  | Outcome.panic => Outcome.panic
  | Outcome.stuck => Outcome.stuck

/-- The `for` loop of `readCompound`, `read.go` lines 110-128, with at most
`k` iterations.  The `err` assigned inside the loop is a new variable, so the
function returns the outer `err`, which is nil. -/
def readCompoundLoop (factory : Nat → Option ReadFunc) : Nat → Stream → Fields → Outcome Value
  | 0, _, _ => Outcome.stuck
  | k + 1, s, out =>
    match readByte s with
    | Outcome.ret v err rest =>
      match err with
      | some _ => Outcome.ret (Value.compound out) none rest
      | none =>
        match v with
        | Value.uint8 id =>
          match factory id with
          | none => Outcome.ret (Value.compound out) none rest
          | some rf =>
            match compoundWrapRead rf rest with
            | Outcome.ret fv err2 rest2 =>
              match err2 with
              | some _ => Outcome.ret (Value.compound out) none rest2
              | none =>
                match fv with
                | some (name, value) => readCompoundLoop factory k rest2 (Fields.set out name value)
                | none => Outcome.panic
            | Outcome.panic => Outcome.panic
            | Outcome.stuck => Outcome.stuck
        | _ => Outcome.panic
    | Outcome.panic => Outcome.panic
    | Outcome.stuck => Outcome.stuck

/-- Function `readCompound`, `read.go` lines 107-129, given the
`readFuncFactory` it calls.  Every iteration that goes on has consumed the tag
byte, so `s.length + 1` iterations are never exceeded. -/
def readCompound (factory : Nat → Option ReadFunc) : ReadFunc := fun s =>
  readCompoundLoop factory (s.length + 1) s []

/-- The `for i := range list` loop of `readList`, `read.go` lines 170-176:
`n` slots still to fill, `acc` the slots filled.  On an element error the loop
breaks and the slots left keep their zero value, the nil interface. -/
def readListLoop (rf : ReadFunc) : Nat → Stream → List Value → Outcome Value
  | 0, s, acc => Outcome.ret (Value.list acc) none s
  | n + 1, s, acc =>
    match rf s with
    | Outcome.ret v err rest =>
      match err with
      | some _ => Outcome.ret (Value.list (acc ++ List.replicate (n + 1) Value.nil)) none rest
      | none => readListLoop rf n rest (acc ++ [v])
    | Outcome.panic => Outcome.panic
    | Outcome.stuck => Outcome.stuck

/-- Function `readList`, `read.go` lines 154-178, given the `readFuncFactory`
it calls.  `make` panics on a negative length. -/
def readList (factory : Nat → Option ReadFunc) : ReadFunc := fun s =>
  match readByte s with
  | Outcome.ret v err rest =>
    match err with
    | some e => Outcome.ret Value.nil (some e) rest
    | none =>
      match v with
      | Value.uint8 id =>
        match readInt rest with
        | Outcome.ret v2 err2 rest2 =>
          match err2 with
          | some e => Outcome.ret Value.nil (some e) rest2
          | none =>
            match v2 with
            | Value.int32 length =>
              match factory id with
              | none =>
                if length ≠ 0 then Outcome.ret Value.nil (some Error.rfNil) rest2
                else Outcome.ret (Value.list []) none rest2
              | some rf =>
                if length < 0 then Outcome.panic
                else readListLoop rf length.toNat rest2 []
            | _ => Outcome.panic
        | Outcome.panic => Outcome.panic
        | Outcome.stuck => Outcome.stuck
      | _ => Outcome.panic
  | Outcome.panic => Outcome.panic
  | Outcome.stuck => Outcome.stuck

/-- Function `readFuncFactory`, `nbt.go` lines 37-68.  The first argument
bounds how deep the containers a returned decoder reads may nest; with budget
zero the container decoders are `stuck`. -/
def readFuncFactory : Nat → Nat → Option ReadFunc
  | 0, id =>
    if id = TagByte then some readByte
    else if id = TagShort then some readShort
    else if id = TagInt then some readInt
    else if id = TagLong then some readLong
    else if id = TagFloat then some readFloat
    else if id = TagDouble then some readDouble
    else if id = TagByteArray then some readByteArray
    else if id = TagString then some readString
    else if id = TagIntArray then some readIntArray
    else if id = TagLongArray then some readLongArray
    else if id = TagCompound then some (fun _ => Outcome.stuck)
    else if id = TagList then some (fun _ => Outcome.stuck)
    else none
  | d + 1, id =>
    if id = TagByte then some readByte
    else if id = TagShort then some readShort
    else if id = TagInt then some readInt
    else if id = TagLong then some readLong
    else if id = TagFloat then some readFloat
    else if id = TagDouble then some readDouble
    else if id = TagByteArray then some readByteArray
    else if id = TagString then some readString
    else if id = TagIntArray then some readIntArray
    else if id = TagLongArray then some readLongArray
    else if id = TagCompound then some (readCompound (readFuncFactory d))
    else if id = TagList then some (readList (readFuncFactory d))
    else none

/-- Function `Parse`, `nbt.go` lines 71-87, with nesting budget `d`.  The
result is the `Compound` returned (`none` is the nil map). -/
def ParseAt (d : Nat) (s : Stream) : Outcome (Option Fields) :=
  match readByte s with
  | Outcome.ret v _ rest =>
    match v with
    | Value.uint8 id =>
      if id ≠ TagCompound then Outcome.ret none (some Error.notInCompound) rest
      else
        match compoundWrapRead (readCompound (readFuncFactory d)) rest with
        | Outcome.ret fv err rest2 =>
          match fv with
          | none => Outcome.ret none (some Error.parseNil) rest2
          | some (_, value) =>
            match value with
            | Value.nil => Outcome.ret none (some Error.parseNil) rest2
            | Value.compound c => Outcome.ret (some c) err rest2
            | _ => Outcome.panic
        | Outcome.panic => Outcome.panic
        | Outcome.stuck => Outcome.stuck
    | _ => Outcome.panic
  | Outcome.panic => Outcome.panic
  | Outcome.stuck => Outcome.stuck

/-- Function `Parse` on an in-memory input: the nesting of containers cannot
exceed the number of input bytes. -/
def Parse (s : Stream) : Outcome (Option Fields) := ParseAt s.length s

/-! ## Writers (`write.go`) -/

/-- Bytes written so far to the in-memory writer. -/
abbrev Writer := List Byte

/-- Type `writeFunc` of `nbt.go`: the error returned and the writer afterwards. -/
abbrev WriteFunc := Writer → Option Error × Writer

/-- Method `w.Write(bs)` of the in-memory writer: appends and never fails. -/
def write (bs : List Byte) : WriteFunc := fun w => (none, w ++ bs)

/-- Big-endian representation of `x` modulo `256 ^ n` on `n` bytes. -/
def beBytes : Nat → Nat → List Byte
  | 0, _ => []
  | n + 1, x => (x / 256 ^ n) % 256 :: beBytes n x

/-- Function `writeByte`. -/
def writeByte (b : Nat) : WriteFunc := fun w => write [b % 256] w

/-- Function `binaryWrite` for a fixed-width unsigned value of `n` bytes. -/
def binaryWrite (n : Nat) (x : Nat) : WriteFunc := fun w => write (beBytes n x) w

/-- Function `writeShort`. -/
def writeShort (s : Nat) : WriteFunc := fun w => binaryWrite 2 s w

/-- Function `writeInt`. -/
def writeInt (i : Nat) : WriteFunc := fun w => binaryWrite 4 i w

/-- Function `writeLong`. -/
def writeLong (l : Nat) : WriteFunc := fun w => binaryWrite 8 l w

/-- Function `writeFloat`, on the bit pattern of the float32. -/
def writeFloat (bits : Nat) : WriteFunc := fun w => binaryWrite 4 bits w

/-- Function `writeDouble`, on the bit pattern of the float64. -/
def writeDouble (bits : Nat) : WriteFunc := fun w => binaryWrite 8 bits w

/-- A `for _, b := range data` loop that writes each element with `wf` and
returns the first error. -/
def writeEach (wf : Nat → WriteFunc) : List Nat → WriteFunc
  | [], w => (none, w)
  | b :: rest, w =>
    match wf b w with
    | (some e, w1) => (some e, w1)
    | (none, w1) => writeEach wf rest w1

/-- Function `writeByteArray`, `write.go` lines 141-156. -/
def writeByteArray (data : List Nat) : WriteFunc := fun w =>
  match writeInt (data.length % 2 ^ 32) w with
  | (some e, w1) => (some e, w1)
  | (none, w1) => writeEach writeByte data w1

/-- Function `writeString`, `write.go` lines 158-173. -/
def writeString (s : GoString) : WriteFunc := fun w =>
  match writeShort (s.length % 2 ^ 16) w with
  | (some e, w1) => (some e, w1)
  | (none, w1) => writeEach writeByte s w1

/-- Function `writeIntArray`, `write.go` lines 175-190. -/
def writeIntArray (data : List Nat) : WriteFunc := fun w =>
  match writeInt (data.length % 2 ^ 32) w with
  | (some e, w1) => (some e, w1)
  | (none, w1) => writeEach writeInt data w1

/-- Function `writeLongArray`, `write.go` lines 192-207. -/
def writeLongArray (data : List Nat) : WriteFunc := fun w =>
  match writeInt (data.length % 2 ^ 32) w with
  | (some e, w1) => (some e, w1)
  | (none, w1) => writeEach writeLong data w1

/-- Function `compoundWrapWrite`, `write.go` lines 231-239. -/
def compoundWrapWrite (name : GoString) (wf : WriteFunc) : WriteFunc := fun w =>
  match writeString name w with
  | (some e, w1) => (some e, w1)
  | (none, w1) => wf w1

/-- Conversion of a signed value to the unsigned type of width `w`. -/
def toUnsigned (w : Nat) (x : Int) : Nat := (x % ((2 ^ w : Nat) : Int)).toNat

mutual
/-- Function `encodeFactory`, `write.go` lines 31-98: the writer (`none` is a
nil `writeFunc`) and the tag of a value. -/
def encodeFactory : Value → Option WriteFunc × Nat
  | Value.compound x => (some (writeCompound x), TagCompound)
  | Value.namedList x => (some (writeList x), TagList)
  | Value.list x => (some (writeList x), TagList)
  | Value.uint8 x => (some (writeByte x), TagByte)
  | Value.int8 x => (some (writeByte (toUnsigned 8 x)), TagByte)
  | Value.uint16 x => (some (writeShort x), TagShort)
  | Value.int16 x => (some (writeShort (toUnsigned 16 x)), TagShort)
  | Value.uint32 x => (some (writeInt x), TagInt)
  | Value.int32 x => (some (writeInt (toUnsigned 32 x)), TagInt)
  | Value.uint64 x => (some (writeLong x), TagLong)
  | Value.int64 x => (some (writeLong (toUnsigned 64 x)), TagLong)
  | Value.int x => (some (writeLong (toUnsigned 64 x)), TagLong)
  | Value.uint x => (some (writeLong x), TagLong)
  | Value.float32 x => (some (writeFloat x), TagFloat)
  | Value.float64 x => (some (writeDouble x), TagDouble)
  | Value.bytes x => (some (writeByteArray x), TagByteArray)
  | Value.uint32s x => (some (writeIntArray x), TagIntArray)
  | Value.int32s x => (some (writeIntArray (x.map (toUnsigned 32))), TagIntArray)
  | Value.uint64s x => (some (writeLongArray x), TagLongArray)
  | Value.int64s x => (some (writeLongArray (x.map (toUnsigned 64))), TagLongArray)
  | Value.uints x => (some (writeLongArray x), TagLongArray)
  | Value.ints x => (some (writeLongArray (x.map (toUnsigned 64))), TagLongArray)
  | Value.string x => (some (writeString x), TagString)
  | Value.nil => (none, TagEnd)
  | Value.bool _ => (none, TagEnd)
termination_by v => (sizeOf v, 0)

/-- The `for name, value := range c` loop of `writeCompound`, `write.go` lines
211-226.  The first component is `some err` when the loop leaves the function
with `return err`, and `none` when the loop ends or breaks. -/
def writeCompoundLoop : Fields → Writer → Option Error × Writer
  | [], w => (none, w)
  | (name, value) :: rest, w =>
    match encodeFactory value with
    | (none, _) => (none, w)
    | (some wf, id) =>
      match writeByte id w with
      | (some e, w1) => (some e, w1)
      | (none, w1) =>
        match compoundWrapWrite name wf w1 with
        | (some _, w2) => (none, w2)
        | (none, w2) => writeCompoundLoop rest w2
termination_by c => (sizeOf c, 0)

/-- Function `writeCompound`, `write.go` lines 209-229. -/
def writeCompound (c : Fields) : WriteFunc := fun w =>
  match writeCompoundLoop c w with
  | (some e, w1) => (some e, w1)
  | (none, w1) => writeByte TagEnd w1
termination_by (sizeOf c, 1)

/-- The `for _, v := range l` loop of `writeList`, `write.go` lines 256-265,
entered with `err` nil: the value of `err` after the loop. -/
def writeListLoop : List Value → Writer → Option Error × Writer
  | [], w => (none, w)
  | v :: rest, w =>
    match encodeFactory v with
    | (none, _) => (none, w)
    | (some wf, _) =>
      match wf w with
      | (some e, w1) => (some e, w1)
      | (none, w1) => writeListLoop rest w1
termination_by l => (sizeOf l, 0)

/-- Function `writeList`, `write.go` lines 241-268. -/
def writeList (l : List Value) : WriteFunc := fun w =>
  if l.length % 2 ^ 32 < 1 then (none, w)
  else
    match l with
    | [] => (none, w)
    | v0 :: rest =>
      match writeByte (encodeFactory v0).2 w with
      | (some e, w1) => (some e, w1)
      | (none, w1) =>
        match writeInt ((v0 :: rest).length % 2 ^ 32) w1 with
        | (some e, w2) => (some e, w2)
        | (none, w2) => writeListLoop (v0 :: rest) w2
termination_by (sizeOf l, 1)
end

/-- Function `Encode`, `write.go` lines 10-16. -/
def Encode (c : Fields) : WriteFunc := fun w =>
  match write [TagCompound] w with
  | (some e, w1) => (some e, w1)
  | (none, w1) => compoundWrapWrite [] (writeCompound c) w1

/-! ## Specification vocabulary -/

/-- Bytes that the writer of a value appends to the output; empty when the
value has no writer. -/
def payload (v : Value) : List Byte :=
  match (encodeFactory v).1 with
  | some wf => (wf []).2
  | none => []

/-- Bytes of one field of a `Compound` on the wire: tag byte, name, payload. -/
def fieldBytes (p : GoString × Value) : List Byte :=
  (encodeFactory p.2).2 % 256 ::
    (beBytes 2 (p.1.length % 2 ^ 16) ++ p.1.map (· % 256) ++ payload p.2)

/-- Values that the decoder can return from a well-formed stream: the
decoder's own result types, integers within the range of their Go type, every
list non-empty with all elements of one tag, strings and field names of at
most 65535 bytes, arrays and lists of fewer than `2^31` elements, and field
names pairwise distinct within a `Compound`. -/
inductive WellFormed : Value → Prop where
  | uint8 (x : Nat) (h : x < 256) : WellFormed (Value.uint8 x)
  | int16 (x : Int) (h1 : -32768 ≤ x) (h2 : x < 32768) : WellFormed (Value.int16 x)
  | int32 (x : Int) (h1 : -2147483648 ≤ x) (h2 : x < 2147483648) : WellFormed (Value.int32 x)
  | int64 (x : Int) (h1 : -9223372036854775808 ≤ x) (h2 : x < 9223372036854775808) :
      WellFormed (Value.int64 x)
  | float32 (bits : Nat) (h : bits < 4294967296) : WellFormed (Value.float32 bits)
  | float64 (bits : Nat) (h : bits < 18446744073709551616) : WellFormed (Value.float64 bits)
  | bytes (xs : List Nat) (hlen : xs.length < 2147483648) (hb : ∀ b ∈ xs, b < 256) :
      WellFormed (Value.bytes xs)
  | string (s : GoString) (hlen : s.length ≤ 65535) (hb : ∀ b ∈ s, b < 256) :
      WellFormed (Value.string s)
  | int32s (xs : List Int) (hlen : xs.length < 2147483648)
      (hx : ∀ x ∈ xs, -2147483648 ≤ x ∧ x < 2147483648) : WellFormed (Value.int32s xs)
  | int64s (xs : List Int) (hlen : xs.length < 2147483648)
      (hx : ∀ x ∈ xs, -9223372036854775808 ≤ x ∧ x < 9223372036854775808) :
      WellFormed (Value.int64s xs)
  | list (xs : List Value) (hne : xs ≠ []) (hlen : xs.length < 2147483648)
      (htag : ∀ u ∈ xs, ∀ v ∈ xs, (encodeFactory u).2 = (encodeFactory v).2)
      (h : ∀ v ∈ xs, WellFormed v) : WellFormed (Value.list xs)
  | compound (c : Fields) (hkeys : (c.map Prod.fst).Nodup)
      (hname : ∀ p ∈ c, p.1.length ≤ 65535 ∧ ∀ b ∈ p.1, b < 256)
      (h : ∀ p ∈ c, WellFormed p.2) : WellFormed (Value.compound c)

/-- The Compound with the fields "name" = "Bob", "hp" = int32 20 and
"tags" = ["fast", "brave"], names and strings as ASCII bytes. -/
def bob : Fields :=
  [([110, 97, 109, 101], Value.string [66, 111, 98]),
   ([104, 112], Value.int32 20),
   ([116, 97, 103, 115],
     Value.list [Value.string [102, 97, 115, 116], Value.string [98, 114, 97, 118, 101]])]

/-- An outcome of a read on the input `s` that is a return leaving no more
input than `s` holds, or a panic; it is not `stuck`. -/
def Outcome.Within {α : Type} (o : Outcome α) (s : Stream) : Prop :=
  match o with
  | Outcome.ret _ _ rest => rest.length ≤ s.length
  | Outcome.panic => True
  | Outcome.stuck => False

/-- Two decoder tables that have a decoder for the same tags, the decoders of
a tag agreeing on every input shorter than `m` and ending within it. -/
def Agree (f g : Nat → Option ReadFunc) (m : Nat) : Prop :=
  ∀ id, (f id = none ∧ g id = none) ∨
    ∃ rf rg, f id = some rf ∧ g id = some rg ∧
      ∀ s : Stream, s.length < m → rf s = rg s ∧ (rf s).Within s

/-- The root name can be read in full from the stream `s`: after the first
byte come two length bytes and at least as many bytes as the length they
declare as an unsigned big-endian number. -/
def rootNameReadable (s : Stream) : Bool :=
  match s.drop 1 with
  | b0 :: b1 :: tl => decide (beNat [b0, b1] % 65536 ≤ tl.length)
  | _ => false

/-! ## Arithmetic of the big-endian representation -/

theorem beBytes_length (n x : Nat) : (beBytes n x).length = n := by
  induction n with
  | zero => rfl
  | succ n ih => simp [beBytes, ih]

theorem beNat_beBytes (n x : Nat) : beNat (beBytes n x) = x % 256 ^ n := by
  induction n with
  | zero => simp [beBytes, beNat, Nat.mod_one]
  | succ n ih =>
    simp only [beBytes, beNat, beBytes_length, ih]
    rw [Nat.mod_pow_succ]
    rw [Nat.mul_comm, Nat.add_comm]

theorem beBytes_lt (n x : Nat) : ∀ b ∈ beBytes n x, b < 256 := by
  induction n with
  | zero => simp [beBytes]
  | succ n ih =>
    intro b hb
    simp only [beBytes, List.mem_cons] at hb
    rcases hb with h | h
    · subst h; exact Nat.mod_lt _ (by decide)
    · exact ih b h

theorem toSigned_toUnsigned_16 (x : Int) (h1 : -32768 ≤ x) (h2 : x < 32768) :
    toSigned 16 (toUnsigned 16 x) = x := by
  simp only [toSigned, toUnsigned]
  norm_num
  split <;> omega

theorem toSigned_toUnsigned_32 (x : Int) (h1 : -2147483648 ≤ x) (h2 : x < 2147483648) :
    toSigned 32 (toUnsigned 32 x) = x := by
  simp only [toSigned, toUnsigned]
  norm_num
  split <;> omega

theorem toSigned_toUnsigned_64 (x : Int) (h1 : -9223372036854775808 ≤ x)
    (h2 : x < 9223372036854775808) : toSigned 64 (toUnsigned 64 x) = x := by
  simp only [toSigned, toUnsigned]
  norm_num
  split <;> omega

theorem readFull_append (bs rest : List Byte) :
    readFull bs.length (bs ++ rest) = (bs, none, rest) := by
  unfold readFull
  by_cases h : bs.length = 0
  · have : bs = [] := List.length_eq_zero.mp h
    subst this; simp
  · simp [h]

theorem binaryRead_beBytes (n x : Nat) (rest : List Byte) :
    binaryRead n (beBytes n x ++ rest) = (x % 256 ^ n, none, rest) := by
  have h := readFull_append (beBytes n x) rest
  rw [beBytes_length] at h
  simp [binaryRead, h, beNat_beBytes]

/-! ## The tag registry -/

theorem readFuncFactory_leaf (d : Nat) :
    readFuncFactory d TagByte = some readByte ∧
    readFuncFactory d TagShort = some readShort ∧
    readFuncFactory d TagInt = some readInt ∧
    readFuncFactory d TagLong = some readLong ∧
    readFuncFactory d TagFloat = some readFloat ∧
    readFuncFactory d TagDouble = some readDouble ∧
    readFuncFactory d TagByteArray = some readByteArray ∧
    readFuncFactory d TagString = some readString ∧
    readFuncFactory d TagIntArray = some readIntArray ∧
    readFuncFactory d TagLongArray = some readLongArray := by
  cases d <;> exact ⟨rfl, rfl, rfl, rfl, rfl, rfl, rfl, rfl, rfl, rfl⟩

theorem readFuncFactory_compound (d : Nat) :
    readFuncFactory (d + 1) TagCompound = some (readCompound (readFuncFactory d)) := rfl

theorem readFuncFactory_list (d : Nat) :
    readFuncFactory (d + 1) TagList = some (readList (readFuncFactory d)) := rfl

theorem readFuncFactory_container_isSome (d : Nat) :
    (readFuncFactory d TagCompound).isSome = true ∧ (readFuncFactory d TagList).isSome = true := by
  cases d <;> exact ⟨rfl, rfl⟩

theorem readFuncFactory_eq_none_iff (d t : Nat) :
    readFuncFactory d t = none ↔ (t = 0 ∨ 12 < t) := by
  constructor
  · intro h
    by_contra hc
    have h1 : 1 ≤ t := by omega
    have h2 : t ≤ 12 := by omega
    have hl := readFuncFactory_leaf d
    have hcn := readFuncFactory_container_isSome d
    simp only [TagByte, TagShort, TagInt, TagLong, TagFloat, TagDouble, TagByteArray,
      TagString, TagIntArray, TagLongArray, TagCompound, TagList] at hl hcn
    obtain ⟨a1, a2, a3, a4, a5, a6, a7, a8, a11, a12⟩ := hl
    interval_cases t
    · rw [a1] at h; cases h
    · rw [a2] at h; cases h
    · rw [a3] at h; cases h
    · rw [a4] at h; cases h
    · rw [a5] at h; cases h
    · rw [a6] at h; cases h
    · rw [a7] at h; cases h
    · rw [a8] at h; cases h
    · rw [h] at hcn; exact absurd hcn.2 (by decide)
    · rw [h] at hcn; exact absurd hcn.1 (by decide)
    · rw [a11] at h; cases h
    · rw [a12] at h; cases h
  · intro h
    have e1 : ¬ t = TagByte := by simp only [TagByte]; omega
    have e2 : ¬ t = TagShort := by simp only [TagShort]; omega
    have e3 : ¬ t = TagInt := by simp only [TagInt]; omega
    have e4 : ¬ t = TagLong := by simp only [TagLong]; omega
    have e5 : ¬ t = TagFloat := by simp only [TagFloat]; omega
    have e6 : ¬ t = TagDouble := by simp only [TagDouble]; omega
    have e7 : ¬ t = TagByteArray := by simp only [TagByteArray]; omega
    have e8 : ¬ t = TagString := by simp only [TagString]; omega
    have e9 : ¬ t = TagList := by simp only [TagList]; omega
    have e10 : ¬ t = TagCompound := by simp only [TagCompound]; omega
    have e11 : ¬ t = TagIntArray := by simp only [TagIntArray]; omega
    have e12 : ¬ t = TagLongArray := by simp only [TagLongArray]; omega
    cases d <;>
      simp only [readFuncFactory, if_neg e1, if_neg e2, if_neg e3, if_neg e4, if_neg e5,
        if_neg e6, if_neg e7, if_neg e8, if_neg e9, if_neg e10, if_neg e11, if_neg e12]

/-! ## What the writers append -/

theorem writeEach_eq (wf : Nat → WriteFunc) (f : Nat → List Byte)
    (h : ∀ b w, wf b w = (none, w ++ f b)) (xs : List Nat) (w : Writer) :
    writeEach wf xs w = (none, w ++ (xs.map f).flatten) := by
  induction xs generalizing w with
  | nil => simp [writeEach]
  | cons b rest ih => simp [writeEach, h, ih]

theorem flatten_map_singleton (f : Nat → Nat) (s : List Nat) :
    (s.map (fun b => [f b])).flatten = s.map f := by
  induction s with
  | nil => rfl
  | cons b rest ih => simp [ih]

theorem writeByte_eq (b : Nat) (w : Writer) : writeByte b w = (none, w ++ [b % 256]) := rfl

theorem binaryWrite_eq (n x : Nat) (w : Writer) :
    binaryWrite n x w = (none, w ++ beBytes n x) := rfl

theorem writeString_eq (s : GoString) (w : Writer) :
    writeString s w = (none, w ++ (beBytes 2 (s.length % 2 ^ 16) ++ s.map (· % 256))) := by
  have h := writeEach_eq writeByte (fun b => [b % 256]) writeByte_eq s
  simp only [writeString, writeShort, binaryWrite_eq, h]
  rw [flatten_map_singleton (· % 256) s, List.append_assoc]

theorem writeByteArray_eq (s : List Nat) (w : Writer) :
    writeByteArray s w = (none, w ++ (beBytes 4 (s.length % 2 ^ 32) ++ s.map (· % 256))) := by
  have h := writeEach_eq writeByte (fun b => [b % 256]) writeByte_eq s
  simp only [writeByteArray, writeInt, binaryWrite_eq, h]
  rw [flatten_map_singleton (· % 256) s, List.append_assoc]

theorem writeIntArray_eq (s : List Nat) (w : Writer) :
    writeIntArray s w
      = (none, w ++ (beBytes 4 (s.length % 2 ^ 32) ++ (s.map (beBytes 4)).flatten)) := by
  have h := writeEach_eq writeInt (beBytes 4) (fun b w => binaryWrite_eq 4 b w) s
  simp only [writeIntArray, h]
  simp only [writeInt, binaryWrite_eq, List.append_assoc]

theorem writeLongArray_eq (s : List Nat) (w : Writer) :
    writeLongArray s w
      = (none, w ++ (beBytes 4 (s.length % 2 ^ 32) ++ (s.map (beBytes 8)).flatten)) := by
  have h := writeEach_eq writeLong (beBytes 8) (fun b w => binaryWrite_eq 8 b w) s
  simp only [writeLongArray, h]
  simp only [writeInt, binaryWrite_eq, List.append_assoc]

theorem compoundWrapWrite_eq (name : GoString) (wf : WriteFunc) (w : Writer) :
    compoundWrapWrite name wf w
      = wf (w ++ (beBytes 2 (name.length % 2 ^ 16) ++ name.map (· % 256))) := by
  simp only [compoundWrapWrite, writeString_eq]

mutual
theorem encodeFactory_append : ∀ (v : Value) (wf : WriteFunc),
    (encodeFactory v).1 = some wf → ∀ w, wf w = (none, w ++ (wf []).2)
  | Value.compound c, wf, h, w => by
    simp only [encodeFactory, Option.some.injEq] at h
    subst h
    have h1 := writeCompoundLoop_append c w
    have h2 := writeCompoundLoop_append c []
    simp only [writeCompound]
    rw [h1]
    generalize (writeCompoundLoop c []).2 = bs at *
    simp [writeByte_eq, h2]
  | Value.namedList l, wf, h, w => by
    simp only [encodeFactory, Option.some.injEq] at h
    subst h
    exact writeList_append l w
  | Value.list l, wf, h, w => by
    simp only [encodeFactory, Option.some.injEq] at h
    subst h
    exact writeList_append l w
  | Value.uint8 x, wf, h, w => by
    simp only [encodeFactory, Option.some.injEq] at h
    subst h; simp [writeByte_eq]
  | Value.int8 x, wf, h, w => by
    simp only [encodeFactory, Option.some.injEq] at h
    subst h; simp [writeByte_eq]
  | Value.uint16 x, wf, h, w => by
    simp only [encodeFactory, Option.some.injEq] at h
    subst h; simp [writeShort, binaryWrite_eq]
  | Value.int16 x, wf, h, w => by
    simp only [encodeFactory, Option.some.injEq] at h
    subst h; simp [writeShort, binaryWrite_eq]
  | Value.uint32 x, wf, h, w => by
    simp only [encodeFactory, Option.some.injEq] at h
    subst h; simp [writeInt, binaryWrite_eq]
  | Value.int32 x, wf, h, w => by
    simp only [encodeFactory, Option.some.injEq] at h
    subst h; simp [writeInt, binaryWrite_eq]
  | Value.uint64 x, wf, h, w => by
    simp only [encodeFactory, Option.some.injEq] at h
    subst h; simp [writeLong, binaryWrite_eq]
  | Value.int64 x, wf, h, w => by
    simp only [encodeFactory, Option.some.injEq] at h
    subst h; simp [writeLong, binaryWrite_eq]
  | Value.int x, wf, h, w => by
    simp only [encodeFactory, Option.some.injEq] at h
    subst h; simp [writeLong, binaryWrite_eq]
  | Value.uint x, wf, h, w => by
    simp only [encodeFactory, Option.some.injEq] at h
    subst h; simp [writeLong, binaryWrite_eq]
  | Value.float32 x, wf, h, w => by
    simp only [encodeFactory, Option.some.injEq] at h
    subst h; simp [writeFloat, binaryWrite_eq]
  | Value.float64 x, wf, h, w => by
    simp only [encodeFactory, Option.some.injEq] at h
    subst h; simp [writeDouble, binaryWrite_eq]
  | Value.bytes x, wf, h, w => by
    simp only [encodeFactory, Option.some.injEq] at h
    subst h; simp [writeByteArray_eq]
  | Value.uint32s x, wf, h, w => by
    simp only [encodeFactory, Option.some.injEq] at h
    subst h; simp [writeIntArray_eq]
  | Value.int32s x, wf, h, w => by
    simp only [encodeFactory, Option.some.injEq] at h
    subst h; simp [writeIntArray_eq]
  | Value.uint64s x, wf, h, w => by
    simp only [encodeFactory, Option.some.injEq] at h
    subst h; simp [writeLongArray_eq]
  | Value.int64s x, wf, h, w => by
    simp only [encodeFactory, Option.some.injEq] at h
    subst h; simp [writeLongArray_eq]
  | Value.uints x, wf, h, w => by
    simp only [encodeFactory, Option.some.injEq] at h
    subst h; simp [writeLongArray_eq]
  | Value.ints x, wf, h, w => by
    simp only [encodeFactory, Option.some.injEq] at h
    subst h; simp [writeLongArray_eq]
  | Value.string x, wf, h, w => by
    simp only [encodeFactory, Option.some.injEq] at h
    subst h; simp [writeString_eq]
  | Value.nil, wf, h, w => by simp [encodeFactory] at h
  | Value.bool _, wf, h, w => by simp [encodeFactory] at h

theorem writeCompoundLoop_append : ∀ (c : Fields) (w : Writer),
    writeCompoundLoop c w = (none, w ++ (writeCompoundLoop c []).2)
  | [], w => by simp [writeCompoundLoop]
  | (name, v) :: rest, w => by
    have hv := encodeFactory_append v
    have hr := writeCompoundLoop_append rest
    rw [writeCompoundLoop, writeCompoundLoop]
    cases hf : encodeFactory v with
    | mk owf id =>
      cases owf with
      | none => simp
      | some wf =>
        have hv2 := hv wf (by rw [hf])
        simp only [writeByte_eq, compoundWrapWrite_eq]
        rw [hv2 (w ++ [id % 256] ++ _), hv2 ([] ++ [id % 256] ++ _)]
        simp only [List.nil_append, List.append_assoc]
        rw [hr (w ++ _), hr ([id % 256] ++ _)]
        simp

theorem writeListLoop_append : ∀ (l : List Value) (w : Writer),
    writeListLoop l w = (none, w ++ (writeListLoop l []).2)
  | [], w => by simp [writeListLoop]
  | v :: rest, w => by
    have hv := encodeFactory_append v
    have hr := writeListLoop_append rest
    rw [writeListLoop, writeListLoop]
    cases hf : encodeFactory v with
    | mk owf id =>
      cases owf with
      | none => simp
      | some wf =>
        have hv2 := hv wf (by rw [hf])
        simp only []
        rw [hv2 w, hv2 []]
        simp only []
        rw [hr (w ++ _), hr ([] ++ _)]
        simp

theorem writeList_append : ∀ (l : List Value) (w : Writer),
    writeList l w = (none, w ++ (writeList l []).2)
  | [], w => by simp [writeList]
  | v :: rest, w => by
    have hr := writeListLoop_append (v :: rest)
    rw [writeList, writeList]
    by_cases hlen : (v :: rest).length % 2 ^ 32 < 1
    · simp only [hlen, if_true]; simp
    · simp only [hlen, if_false, writeByte_eq, writeInt, binaryWrite_eq]
      rw [hr (w ++ _ ++ _), hr ([] ++ _ ++ _)]
      simp
end


theorem encodeFactory_payload (v : Value) (wf : WriteFunc) (h : (encodeFactory v).1 = some wf)
    (w : Writer) : wf w = (none, w ++ payload v) := by
  rw [encodeFactory_append v wf h w]
  simp [payload, h]

theorem writeListLoop_eq (l : List Value) (h : ∀ v ∈ l, (encodeFactory v).1 ≠ none)
    (w : Writer) : writeListLoop l w = (none, w ++ (l.map payload).flatten) := by
  induction l generalizing w with
  | nil => simp [writeListLoop]
  | cons v rest ih =>
    rw [writeListLoop]
    have hv := h v (List.mem_cons_self _ _)
    cases hf : encodeFactory v with
    | mk owf id =>
      cases owf with
      | none => rw [hf] at hv; exact absurd rfl hv
      | some wf =>
        have hp := encodeFactory_payload v wf (by rw [hf])
        simp only [hp]
        rw [ih (fun u hu => h u (List.mem_cons_of_mem _ hu))]
        simp

theorem writeList_eq (v0 : Value) (rest : List Value) (hlen : (v0 :: rest).length < 2 ^ 32)
    (h : ∀ v ∈ v0 :: rest, (encodeFactory v).1 ≠ none) (w : Writer) :
    writeList (v0 :: rest) w
      = (none, w ++ ((encodeFactory v0).2 % 256 :: (beBytes 4 (v0 :: rest).length
          ++ ((v0 :: rest).map payload).flatten))) := by
  rw [writeList]
  have h1 : ¬ (v0 :: rest).length % 2 ^ 32 < 1 := by
    rw [Nat.mod_eq_of_lt hlen]; simp
  simp only [h1, if_false, writeByte_eq, writeInt, binaryWrite_eq]
  rw [writeListLoop_eq _ h, Nat.mod_eq_of_lt hlen]
  simp

theorem writeCompoundLoop_eq (c : Fields) (h : ∀ p ∈ c, (encodeFactory p.2).1 ≠ none)
    (w : Writer) : writeCompoundLoop c w = (none, w ++ (c.map fieldBytes).flatten) := by
  induction c generalizing w with
  | nil => simp [writeCompoundLoop]
  | cons p rest ih =>
    obtain ⟨name, v⟩ := p
    rw [writeCompoundLoop]
    have hv := h (name, v) (List.mem_cons_self _ _)
    cases hf : encodeFactory v with
    | mk owf id =>
      cases owf with
      | none => simp only [hf] at hv; exact absurd rfl hv
      | some wf =>
        have hp := encodeFactory_payload v wf (by rw [hf])
        simp only [writeByte_eq, compoundWrapWrite_eq, hp]
        rw [ih (fun u hu => h u (List.mem_cons_of_mem _ hu))]
        simp [fieldBytes, hf]

theorem writeCompound_eq (c : Fields) (h : ∀ p ∈ c, (encodeFactory p.2).1 ≠ none)
    (w : Writer) : writeCompound c w = (none, w ++ ((c.map fieldBytes).flatten ++ [0])) := by
  rw [writeCompound, writeCompoundLoop_eq c h]
  simp [writeByte_eq, TagEnd]

theorem Encode_eq (c : Fields) (h : ∀ p ∈ c, (encodeFactory p.2).1 ≠ none) (w : Writer) :
    Encode c w = (none, w ++ (10 :: 0 :: 0 :: ((c.map fieldBytes).flatten ++ [0]))) := by
  simp [Encode, write, compoundWrapWrite_eq, writeCompound_eq c h, beBytes, TagCompound]

theorem payload_compound (c : Fields) (h : ∀ p ∈ c, (encodeFactory p.2).1 ≠ none) :
    payload (Value.compound c) = (c.map fieldBytes).flatten ++ [0] := by
  simp [payload, encodeFactory, writeCompound_eq c h]

theorem payload_list (v0 : Value) (rest : List Value) (hlen : (v0 :: rest).length < 2 ^ 32)
    (h : ∀ v ∈ v0 :: rest, (encodeFactory v).1 ≠ none) :
    payload (Value.list (v0 :: rest))
      = (encodeFactory v0).2 % 256 :: (beBytes 4 (v0 :: rest).length
          ++ ((v0 :: rest).map payload).flatten) := by
  simp only [payload, encodeFactory, writeList_eq v0 rest hlen h]
  simp

/-! ## Decoding what the writers wrote -/

theorem map_mod_eq (s : List Nat) (h : ∀ b ∈ s, b < 256) : s.map (· % 256) = s := by
  induction s with
  | nil => rfl
  | cons b rest ih =>
    simp only [List.map_cons]
    rw [ih (fun x hx => h x (List.mem_cons_of_mem _ hx)),
      Nat.mod_eq_of_lt (h b (List.mem_cons_self _ _))]

theorem readShort_beBytes (u : Nat) (rest : Stream) :
    readShort (beBytes 2 u ++ rest)
      = Outcome.ret (Value.int16 (toSigned 16 (u % 65536))) none rest := by
  simp [readShort, binaryRead_beBytes]

theorem readInt_beBytes (u : Nat) (rest : Stream) :
    readInt (beBytes 4 u ++ rest)
      = Outcome.ret (Value.int32 (toSigned 32 (u % 4294967296))) none rest := by
  simp [readInt, binaryRead_beBytes]

theorem readLong_beBytes (u : Nat) (rest : Stream) :
    readLong (beBytes 8 u ++ rest)
      = Outcome.ret (Value.int64 (toSigned 64 (u % 18446744073709551616))) none rest := by
  simp [readLong, binaryRead_beBytes]

theorem toSigned_32_of_lt (n : Nat) (h : n < 2147483648) :
    toSigned 32 (n % 4294967296) = (n : Int) := by
  have h1 : n % 4294967296 % 2 ^ 32 = n := by omega
  have h2 : n < 2 ^ (32 - 1) := by norm_num; omega
  simp only [toSigned, h1, h2, if_true]

theorem readString_encoded (s : GoString) (hlen : s.length ≤ 65535) (hb : ∀ b ∈ s, b < 256)
    (rest : Stream) :
    readString (beBytes 2 (s.length % 2 ^ 16) ++ s.map (· % 256) ++ rest)
      = Outcome.ret (Value.string s) none rest := by
  rw [map_mod_eq s hb, List.append_assoc]
  simp only [readString, readShort_beBytes]
  have hn : ((toSigned 16 (s.length % 2 ^ 16 % 65536)) % 65536).toNat = s.length := by
    simp only [toSigned]
    norm_num
    split <;> omega
  simp only [hn, readFull_append]

theorem readByteArray_encoded (s : List Nat) (hlen : s.length < 2147483648)
    (hb : ∀ b ∈ s, b < 256) (rest : Stream) :
    readByteArray (beBytes 4 (s.length % 2 ^ 32) ++ s.map (· % 256) ++ rest)
      = Outcome.ret (Value.bytes s) none rest := by
  rw [map_mod_eq s hb, List.append_assoc]
  have h1 : s.length % 2 ^ 32 = s.length := Nat.mod_eq_of_lt (by omega)
  simp only [readByteArray, readInt_beBytes, h1, toSigned_32_of_lt _ hlen]
  simp [readFull_append]

theorem readIntArrayLoop_encoded (xs : List Int)
    (hx : ∀ x ∈ xs, -2147483648 ≤ x ∧ x < 2147483648) (rest : Stream) (acc : List Int) :
    readIntArrayLoop xs.length (((xs.map (toUnsigned 32)).map (beBytes 4)).flatten ++ rest) acc
      = Outcome.ret (Value.int32s (acc ++ xs)) none rest := by
  induction xs generalizing acc with
  | nil => simp [readIntArrayLoop]
  | cons x tl ih =>
    have hx0 := hx x (List.mem_cons_self _ _)
    have hu : toUnsigned 32 x % 4294967296 = toUnsigned 32 x := by
      simp only [toUnsigned]; omega
    simp only [List.map_cons, List.flatten_cons, List.length_cons, List.append_assoc,
      readIntArrayLoop, readInt_beBytes, hu, toSigned_toUnsigned_32 x hx0.1 hx0.2]
    rw [ih (fun y hy => hx y (List.mem_cons_of_mem _ hy))]
    simp

theorem readLongArrayLoop_encoded (xs : List Int)
    (hx : ∀ x ∈ xs, -9223372036854775808 ≤ x ∧ x < 9223372036854775808) (rest : Stream)
    (acc : List Int) :
    readLongArrayLoop xs.length (((xs.map (toUnsigned 64)).map (beBytes 8)).flatten ++ rest) acc
      = Outcome.ret (Value.int64s (acc ++ xs)) none rest := by
  induction xs generalizing acc with
  | nil => simp [readLongArrayLoop]
  | cons x tl ih =>
    have hx0 := hx x (List.mem_cons_self _ _)
    have hu : toUnsigned 64 x % 18446744073709551616 = toUnsigned 64 x := by
      simp only [toUnsigned]; omega
    simp only [List.map_cons, List.flatten_cons, List.length_cons, List.append_assoc,
      readLongArrayLoop, readLong_beBytes, hu, toSigned_toUnsigned_64 x hx0.1 hx0.2]
    rw [ih (fun y hy => hx y (List.mem_cons_of_mem _ hy))]
    simp

theorem readIntArray_encoded (xs : List Int) (hlen : xs.length < 2147483648)
    (hx : ∀ x ∈ xs, -2147483648 ≤ x ∧ x < 2147483648) (rest : Stream) :
    readIntArray (beBytes 4 ((xs.map (toUnsigned 32)).length % 2 ^ 32)
        ++ ((xs.map (toUnsigned 32)).map (beBytes 4)).flatten ++ rest)
      = Outcome.ret (Value.int32s xs) none rest := by
  have h1 : xs.length % 2 ^ 32 = xs.length := Nat.mod_eq_of_lt (by omega)
  rw [List.append_assoc]
  simp only [readIntArray, readInt_beBytes, List.length_map, h1, toSigned_32_of_lt _ hlen]
  have := readIntArrayLoop_encoded xs hx rest []
  simpa using this

theorem readLongArray_encoded (xs : List Int) (hlen : xs.length < 2147483648)
    (hx : ∀ x ∈ xs, -9223372036854775808 ≤ x ∧ x < 9223372036854775808) (rest : Stream) :
    readLongArray (beBytes 4 ((xs.map (toUnsigned 64)).length % 2 ^ 32)
        ++ ((xs.map (toUnsigned 64)).map (beBytes 8)).flatten ++ rest)
      = Outcome.ret (Value.int64s xs) none rest := by
  have h1 : xs.length % 2 ^ 32 = xs.length := Nat.mod_eq_of_lt (by omega)
  rw [List.append_assoc]
  simp only [readLongArray, readInt_beBytes, List.length_map, h1, toSigned_32_of_lt _ hlen]
  have := readLongArrayLoop_encoded xs hx rest []
  simpa using this


theorem Fields.set_append (out : Fields) (name : GoString) (v : Value)
    (h : name ∉ out.map Prod.fst) : Fields.set out name v = out ++ [(name, v)] := by
  induction out with
  | nil => rfl
  | cons p tl ih =>
    obtain ⟨k, u⟩ := p
    simp only [List.map_cons, List.mem_cons, not_or] at h
    have hk : ¬ k = name := fun e => h.1 e.symm
    simp only [Fields.set, hk, if_false, ih h.2, List.cons_append]

theorem length_le_flatten_of_mem {α : Type} (L : List (List α)) (l : List α) (h : l ∈ L) :
    l.length ≤ L.flatten.length := by
  induction L with
  | nil => cases h
  | cons x tl ih =>
    simp only [List.flatten_cons, List.length_append]
    rcases List.mem_cons.mp h with e | e
    · subst e; omega
    · have := ih e; omega

theorem readListLoop_encoded (rf : ReadFunc) (l : List Value)
    (h : ∀ v ∈ l, ∀ rest, rf (payload v ++ rest) = Outcome.ret v none rest)
    (rest : Stream) (acc : List Value) :
    readListLoop rf l.length ((l.map payload).flatten ++ rest) acc
      = Outcome.ret (Value.list (acc ++ l)) none rest := by
  induction l generalizing acc with
  | nil => simp [readListLoop]
  | cons v tl ih =>
    simp only [List.map_cons, List.flatten_cons, List.length_cons, List.append_assoc,
      readListLoop, h v (List.mem_cons_self _ _)]
    rw [ih (fun u hu => h u (List.mem_cons_of_mem _ hu))]
    simp

theorem compoundWrapRead_encoded (rf : ReadFunc) (name : GoString) (v : Value)
    (hlen : name.length ≤ 65535) (hb : ∀ b ∈ name, b < 256) (rest : Stream)
    (h : rf (payload v ++ rest) = Outcome.ret v none rest) :
    compoundWrapRead rf
        (beBytes 2 (name.length % 2 ^ 16) ++ name.map (· % 256) ++ payload v ++ rest)
      = Outcome.ret (some (name, v)) none rest := by
  rw [List.append_assoc]
  simp only [compoundWrapRead, readString_encoded name hlen hb, h]

theorem length_le_fieldBytes (c : Fields) : c.length ≤ ((c.map fieldBytes).flatten).length := by
  induction c with
  | nil => simp
  | cons p tl ih =>
    simp only [List.map_cons, List.flatten_cons, List.length_append, List.length_cons, fieldBytes]
    omega

theorem readCompoundLoop_encoded (factory : Nat → Option ReadFunc) (hend : factory 0 = none)
    (c : Fields)
    (hdec : ∀ p ∈ c, p.1.length ≤ 65535 ∧ (∀ b ∈ p.1, b < 256) ∧ (encodeFactory p.2).2 < 256 ∧
      ∃ rf, factory (encodeFactory p.2).2 = some rf ∧
        ∀ rest, rf (payload p.2 ++ rest) = Outcome.ret p.2 none rest)
    (out : Fields) (hkeys : ((out ++ c).map Prod.fst).Nodup) (k : Nat) (hk : c.length < k)
    (rest : Stream) :
    readCompoundLoop factory k ((c.map fieldBytes).flatten ++ 0 :: rest) out
      = Outcome.ret (Value.compound (out ++ c)) none rest := by
  induction c generalizing out k with
  | nil =>
    cases k with
    | zero => cases hk
    | succ k => simp [readCompoundLoop, readByte, hend]
  | cons p tl ih =>
    obtain ⟨name, v⟩ := p
    cases k with
    | zero => cases hk
    | succ k =>
      obtain ⟨h1, h2, h3, rf, h4, h5⟩ := hdec (name, v) (List.mem_cons_self _ _)
      have hnot : name ∉ out.map Prod.fst := by
        intro hmem
        rw [List.map_append, List.map_cons] at hkeys
        have := (List.nodup_append.mp hkeys).2.2
        exact this hmem (List.mem_cons_self _ _)
      have hkeys2 : (((out ++ [(name, v)]) ++ tl).map Prod.fst).Nodup := by
        simpa using hkeys
      simp only [List.map_cons, List.flatten_cons, fieldBytes, List.cons_append,
        readCompoundLoop, readByte, Nat.mod_eq_of_lt h3, h4, List.append_assoc]
      have hw := compoundWrapRead_encoded rf name v h1 h2
        ((tl.map fieldBytes).flatten ++ 0 :: rest) (h5 _)
      simp only [List.append_assoc] at hw
      simp only [hw, Fields.set_append out name v hnot]
      rw [ih (fun q hq => hdec q (List.mem_cons_of_mem _ hq)) _ hkeys2 k
        (by simp only [List.length_cons] at hk; omega)]
      simp

theorem WellFormed.tag_range {v : Value} (h : WellFormed v) :
    (encodeFactory v).1 ≠ none ∧ 1 ≤ (encodeFactory v).2 ∧ (encodeFactory v).2 ≤ 12 := by
  cases h <;>
  · simp only [encodeFactory]
    exact ⟨by simp, by decide, by decide⟩

theorem WellFormed.decodes {v : Value} (h : WellFormed v) :
    ∀ d, (payload v).length ≤ d → ∀ rest, ∃ rf,
      readFuncFactory d (encodeFactory v).2 = some rf ∧
      rf (payload v ++ rest) = Outcome.ret v none rest := by
  induction h with
  | uint8 x h =>
    intro d _ rest
    refine ⟨readByte, ?_, ?_⟩
    · simpa [encodeFactory] using (readFuncFactory_leaf d).1
    · simp [payload, encodeFactory, writeByte_eq, readByte, Nat.mod_eq_of_lt h]
  | int16 x h1 h2 =>
    intro d _ rest
    refine ⟨readShort, ?_, ?_⟩
    · simpa [encodeFactory] using (readFuncFactory_leaf d).2.1
    · have hu : toUnsigned 16 x % 65536 = toUnsigned 16 x := by
        simp only [toUnsigned]; omega
      simp [payload, encodeFactory, writeShort, binaryWrite_eq, readShort_beBytes, hu,
        toSigned_toUnsigned_16 x h1 h2]
  | int32 x h1 h2 =>
    intro d _ rest
    refine ⟨readInt, ?_, ?_⟩
    · simpa [encodeFactory] using (readFuncFactory_leaf d).2.2.1
    · have hu : toUnsigned 32 x % 4294967296 = toUnsigned 32 x := by
        simp only [toUnsigned]; omega
      simp [payload, encodeFactory, writeInt, binaryWrite_eq, readInt_beBytes, hu,
        toSigned_toUnsigned_32 x h1 h2]
  | int64 x h1 h2 =>
    intro d _ rest
    refine ⟨readLong, ?_, ?_⟩
    · simpa [encodeFactory] using (readFuncFactory_leaf d).2.2.2.1
    · have hu : toUnsigned 64 x % 18446744073709551616 = toUnsigned 64 x := by
        simp only [toUnsigned]; omega
      simp [payload, encodeFactory, writeLong, binaryWrite_eq, readLong_beBytes, hu,
        toSigned_toUnsigned_64 x h1 h2]
  | float32 bits h =>
    intro d _ rest
    refine ⟨readFloat, ?_, ?_⟩
    · simpa [encodeFactory] using (readFuncFactory_leaf d).2.2.2.2.1
    · simp [payload, encodeFactory, writeFloat, binaryWrite_eq, readFloat, binaryRead_beBytes,
        Nat.mod_eq_of_lt h]
  | float64 bits h =>
    intro d _ rest
    refine ⟨readDouble, ?_, ?_⟩
    · simpa [encodeFactory] using (readFuncFactory_leaf d).2.2.2.2.2.1
    · simp [payload, encodeFactory, writeDouble, binaryWrite_eq, readDouble, binaryRead_beBytes,
        Nat.mod_eq_of_lt h]
  | bytes xs hlen hb =>
    intro d _ rest
    refine ⟨readByteArray, ?_, ?_⟩
    · simpa [encodeFactory] using (readFuncFactory_leaf d).2.2.2.2.2.2.1
    · have := readByteArray_encoded xs hlen hb rest
      simpa [payload, encodeFactory, writeByteArray_eq] using this
  | string s hlen hb =>
    intro d _ rest
    refine ⟨readString, ?_, ?_⟩
    · simpa [encodeFactory] using (readFuncFactory_leaf d).2.2.2.2.2.2.2.1
    · have := readString_encoded s hlen hb rest
      simpa [payload, encodeFactory, writeString_eq] using this
  | int32s xs hlen hx =>
    intro d _ rest
    refine ⟨readIntArray, ?_, ?_⟩
    · simpa [encodeFactory] using (readFuncFactory_leaf d).2.2.2.2.2.2.2.2.1
    · have := readIntArray_encoded xs hlen hx rest
      simpa [payload, encodeFactory, writeIntArray_eq] using this
  | int64s xs hlen hx =>
    intro d _ rest
    refine ⟨readLongArray, ?_, ?_⟩
    · simpa [encodeFactory] using (readFuncFactory_leaf d).2.2.2.2.2.2.2.2.2
    · have := readLongArray_encoded xs hlen hx rest
      simpa [payload, encodeFactory, writeLongArray_eq] using this
  | list xs hne hlen htag h ih =>
    intro d hd rest
    cases xs with
    | nil => exact absurd rfl hne
    | cons v0 tl =>
      have henc : ∀ v ∈ v0 :: tl, (encodeFactory v).1 ≠ none := fun v hv => (h v hv).tag_range.1
      have hp := payload_list v0 tl (by omega) henc
      have ht0 := (h v0 (List.mem_cons_self _ _)).tag_range
      rw [hp] at hd ⊢
      simp only [List.length_cons, List.length_append, beBytes_length] at hd
      cases d with
      | zero => omega
      | succ d =>
        refine ⟨readList (readFuncFactory d), ?_, ?_⟩
        · simp [encodeFactory, readFuncFactory_list]
        · have hsub : ∀ v ∈ v0 :: tl, (payload v).length ≤ d := by
            intro v hv
            have := length_le_flatten_of_mem ((v0 :: tl).map payload) (payload v)
              (List.mem_map_of_mem _ hv)
            simp only [List.length_cons] at this hd
            omega
          obtain ⟨rf0, hrf0, _⟩ := ih v0 (List.mem_cons_self _ _) d
            (hsub v0 (List.mem_cons_self _ _)) []
          have hall : ∀ v ∈ v0 :: tl, ∀ rest, rf0 (payload v ++ rest) = Outcome.ret v none rest := by
            intro v hv rest
            obtain ⟨rf, hrf, hr⟩ := ih v hv d (hsub v hv) rest
            rw [htag v hv v0 (List.mem_cons_self _ _), hrf0] at hrf
            cases hrf
            exact hr
          have hloop := readListLoop_encoded rf0 (v0 :: tl) hall rest []
          have hmod : (encodeFactory v0).2 % 256 = (encodeFactory v0).2 :=
            Nat.mod_eq_of_lt (by omega)
          have hneg : ¬ ((((v0 :: tl).length : Nat) : Int) < 0) := by omega
          simp only [readList, readByte, List.cons_append, List.append_assoc, readInt_beBytes,
            hmod, hrf0, toSigned_32_of_lt _ hlen, hneg, if_false, Int.toNat_ofNat]
          simpa using hloop
  | compound c hkeys hname h ih =>
    intro d hd rest
    have henc : ∀ p ∈ c, (encodeFactory p.2).1 ≠ none := fun p hp => (h p hp).tag_range.1
    have hp := payload_compound c henc
    rw [hp] at hd ⊢
    simp only [List.length_append, List.length_cons, List.length_nil] at hd
    cases d with
    | zero => omega
    | succ d =>
      refine ⟨readCompound (readFuncFactory d), ?_, ?_⟩
      · simp [encodeFactory, readFuncFactory_compound]
      · have hdec : ∀ p ∈ c, p.1.length ≤ 65535 ∧ (∀ b ∈ p.1, b < 256) ∧
            (encodeFactory p.2).2 < 256 ∧
            ∃ rf, readFuncFactory d (encodeFactory p.2).2 = some rf ∧
              ∀ rest, rf (payload p.2 ++ rest) = Outcome.ret p.2 none rest := by
          intro p hpm
          have hr := (h p hpm).tag_range
          have hsub : (payload p.2).length ≤ d := by
            have := length_le_flatten_of_mem (c.map fieldBytes) (fieldBytes p)
              (List.mem_map_of_mem _ hpm)
            simp only [fieldBytes, List.length_cons, List.length_append] at this
            omega
          obtain ⟨rf, hrf, _⟩ := ih p hpm d hsub []
          refine ⟨(hname p hpm).1, (hname p hpm).2, by omega, rf, hrf, ?_⟩
          intro rest
          obtain ⟨rf2, hrf2, hr2⟩ := ih p hpm d hsub rest
          rw [hrf] at hrf2
          cases hrf2
          exact hr2
        have hend : readFuncFactory d 0 = none :=
          (readFuncFactory_eq_none_iff d 0).mpr (Or.inl rfl)
        have hloop := readCompoundLoop_encoded (readFuncFactory d) hend c hdec []
          (by simpa using hkeys)
          (((c.map fieldBytes).flatten ++ [0] ++ rest).length + 1)
          (by
            have := length_le_fieldBytes c
            simp only [List.length_append]
            omega)
          rest
        simp only [readCompound]
        simpa using hloop

theorem Encode_no_error (c : Fields) (w : Writer) : (Encode c w).1 = none := by
  simp only [Encode, write, compoundWrapWrite_eq, writeCompound]
  rw [writeCompoundLoop_append]
  simp [writeByte_eq]

/-! ## Round trip -/

theorem bob_wellFormed : WellFormed (Value.compound bob) := by
  refine WellFormed.compound bob (by decide) (by decide) ?_
  intro p hp
  simp only [bob, List.mem_cons, List.mem_singleton, List.not_mem_nil, or_false] at hp
  rcases hp with rfl | rfl | rfl
  · exact WellFormed.string _ (by decide) (by decide)
  · exact WellFormed.int32 _ (by decide) (by decide)
  · refine WellFormed.list _ (by simp) (by decide) ?_ ?_
    · intro u hu v hv
      simp only [List.mem_cons, List.mem_singleton, List.not_mem_nil, or_false] at hu hv
      rcases hu with rfl | rfl <;> rcases hv with rfl | rfl <;> simp [encodeFactory]
    · intro v hv
      simp only [List.mem_cons, List.mem_singleton, List.not_mem_nil, or_false] at hv
      rcases hv with rfl | rfl <;> exact WellFormed.string _ (by decide) (by decide)

/-- Claim C1 (the code breaks it): a Compound holding an empty list does not
survive the round trip.  `Parse` returns the Compound with the single field
"a" = empty list from a 13-byte stream;
`Encode` of that Compound writes no list header at all, only 8 bytes; and `Parse`
of those 8 bytes returns the empty Compound with a nil error. -/
theorem roundtrip_fails_on_empty_list :
    Parse [10, 0, 0, 9, 0, 1, 97, 0, 0, 0, 0, 0, 0]
      = Outcome.ret (some [([97], Value.list [])]) none [] ∧
    Encode [([97], Value.list [])] [] = (none, [10, 0, 0, 9, 0, 1, 97, 0]) ∧
    Parse [10, 0, 0, 9, 0, 1, 97, 0] = Outcome.ret (some []) none [] := by
  refine ⟨rfl, ?_, rfl⟩
  simp [Encode, write, compoundWrapWrite, writeString, writeShort, binaryWrite, beBytes,
    writeEach, writeCompound, writeCompoundLoop, encodeFactory, writeByte, writeList, TagList,
    TagCompound, TagEnd]

/-- Claim C2: for every Compound `T` of well-formed values (decoder result
types, non-empty single-tag lists, names and strings of at most 65535 bytes,
arrays and lists shorter than `2^31`), whatever the order in which its fields
are listed and hence emitted, `Encode` returns a nil error and `Parse` of the
bytes written returns `T` with a nil error, all input consumed. -/
theorem Parse_Encode_wellFormed (T : Fields) (h : WellFormed (Value.compound T)) :
    (Encode T []).1 = none ∧ Parse (Encode T []).2 = Outcome.ret (some T) none [] := by
  refine ⟨Encode_no_error T [], ?_⟩
  have henc : ∀ p ∈ T, (encodeFactory p.2).1 ≠ none := by
    cases h with
    | compound _ _ _ hw => exact fun p hp => (hw p hp).tag_range.1
  rw [Encode_eq T henc]
  have hp := payload_compound T henc
  obtain ⟨rf, hrf, hr⟩ := h.decodes ((payload (Value.compound T)).length + 3 + 1)
    (by omega) []
  simp only [encodeFactory, readFuncFactory_compound, Option.some.injEq] at hrf
  subst hrf
  rw [hp] at hr
  simp only [List.append_nil] at hr
  have hlen : ([] ++ (10 :: 0 :: 0 :: ((T.map fieldBytes).flatten ++ [0])) : List Byte).length
      = (payload (Value.compound T)).length + 3 := by
    rw [hp]; simp
  simp only [Parse, hlen]
  have hname : readString (0 :: 0 :: ((T.map fieldBytes).flatten ++ [0]))
      = Outcome.ret (Value.string []) none ((T.map fieldBytes).flatten ++ [0]) := by
    simp [readString, readShort, binaryRead, readFull, beNat, toSigned]
  rw [hp]
  simp only [ParseAt, readByte, List.nil_append, TagCompound, ne_eq, not_true_eq_false,
    if_false, compoundWrapRead, hname, hr]

/-- Claim C2, witness: the Compound with fields "name", "hp" and "tags" is
well formed and decodes back to itself, list order included. -/
theorem Parse_Encode_wellFormed_witness :
    WellFormed (Value.compound bob) ∧
    (Encode bob []).1 = none ∧ Parse (Encode bob []).2 = Outcome.ret (some bob) none [] :=
  ⟨bob_wellFormed, Parse_Encode_wellFormed bob bob_wellFormed⟩

/-! ## Errors that the decoder drops -/

/-- Claim C3 (the code breaks it): the 20 bytes that `Encode` writes for the
Compound with fields "a" = int32 1 and "b" = int32 2, cut after 17 bytes in the
middle of the payload of "b", make `Parse` return the partial Compound with
the field "a" = 1 alone and a nil error. -/
theorem Parse_truncated_returns_partial :
    Encode [([97], Value.int32 1), ([98], Value.int32 2)] []
      = (none, [10, 0, 0, 3, 0, 1, 97, 0, 0, 0, 1, 3, 0, 1, 98, 0, 0, 0, 2, 0]) ∧
    Parse ([10, 0, 0, 3, 0, 1, 97, 0, 0, 0, 1, 3, 0, 1, 98, 0, 0, 0, 2, 0].take 17)
      = Outcome.ret (some [([97], Value.int32 1)]) none [] := by
  refine ⟨?_, rfl⟩
  simp [Encode, write, compoundWrapWrite, writeString, writeShort, binaryWrite, beBytes,
    writeEach, writeCompound, writeCompoundLoop, encodeFactory, writeByte, writeInt, toUnsigned,
    TagInt, TagCompound, TagEnd]

/-- Claim C4 (the code breaks it): a list header with element tag Int and
count 3 followed by only 6 payload bytes makes `readList` return a list of
length 3, the decoded first element followed by two nil slots, with a nil
error. -/
theorem readList_element_error_dropped (d : Nat) :
    readList (readFuncFactory d) [3, 0, 0, 0, 3, 0, 0, 0, 1, 0, 0]
      = Outcome.ret (Value.list [Value.int32 1, Value.nil, Value.nil]) none [] := by
  cases d <;> rfl

/-- Claim C5 (the code breaks it): a ByteArray field declaring 5 bytes with
only 2 present, and a List field with element tag 0 and count 1, both make
their decoder return an error, yet `readCompound` returns the fields decoded
so far with a nil error, and so does `Parse` inside the root. -/
theorem readCompound_field_error_dropped (d : Nat) :
    readByteArray [0, 0, 0, 5, 1, 2]
      = Outcome.ret (Value.bytes [1, 2, 0, 0, 0]) (some Error.ErrUnexpectedEOF) [] ∧
    readCompound (readFuncFactory d) [7, 0, 1, 97, 0, 0, 0, 5, 1, 2]
      = Outcome.ret (Value.compound []) none [] ∧
    readList (readFuncFactory d) [0, 0, 0, 0, 1]
      = Outcome.ret Value.nil (some Error.rfNil) [] ∧
    readCompound (readFuncFactory (d + 1)) [9, 0, 1, 97, 0, 0, 0, 0, 1]
      = Outcome.ret (Value.compound []) none [] ∧
    Parse [10, 0, 0, 1, 0, 1, 120, 7, 7, 0, 1, 97, 0, 0, 0, 5, 1, 2]
      = Outcome.ret (some [([120], Value.uint8 7)]) none [] := by
  refine ⟨rfl, ?_, ?_, ?_, rfl⟩
  · cases d <;> rfl
  · cases d <;> rfl
  · cases d <;> rfl

/-! ## The root tag -/

/-- Claim C6: when the first byte of the input is not 0x0A, or the input is
empty, `Parse` returns the nil Compound with an error and has read only that
first byte. -/
theorem Parse_root_not_compound (s : Stream) (h : s.head? ≠ some TagCompound) :
    Parse s = Outcome.ret none (some Error.notInCompound) (s.drop 1) := by
  cases s with
  | nil => rfl
  | cons b rest =>
    have hb : b ≠ TagCompound := by
      intro hb; apply h; simp [hb]
    simp [Parse, ParseAt, readByte, hb]

/-- Claim C6, witness: a stream starting with the Byte tag. -/
theorem Parse_root_not_compound_witness :
    ([1, 0, 0, 0] : Stream).head? ≠ some TagCompound ∧
    Parse [1, 0, 0, 0] = Outcome.ret none (some Error.notInCompound) [0, 0, 0] :=
  ⟨by decide, Parse_root_not_compound [1, 0, 0, 0] (by decide)⟩

/-! ## Lists and unrepresentable values in the encoder -/

/-- Claim C7, counterexample: the list `[int32 1, "a"]` has elements of tags 3
and 8, yet `writeList` returns a nil error and writes the string payload
`00 01 61` after the header of an Int list. -/
theorem writeList_heterogeneous_counterexample :
    (encodeFactory (Value.string [97])).2 ≠ (encodeFactory (Value.int32 1)).2 ∧
    writeList [Value.int32 1, Value.string [97]] []
      = (none, [3, 0, 0, 0, 2, 0, 0, 0, 1, 0, 1, 97]) := by
  constructor
  · simp [encodeFactory, TagString, TagInt]
  · simp [write, writeString, writeShort, binaryWrite, beBytes, writeEach, writeListLoop,
      encodeFactory, writeByte, writeList, writeInt, toUnsigned, TagInt]

/-- Claim C7, amended: for every list of at least two elements, fewer than
`2^32`, each with a writer, whose second element has a tag different from the
first, `writeList` returns a nil error on an in-memory writer and writes the
first element's tag byte, the count, and then the payload of every element as
its own writer writes it; `Encode` of a Compound containing the list returns a
nil error too. -/
theorem writeList_heterogeneous_writes_all (v0 v1 : Value) (rest : List Value) (w : Writer)
    (_htag : (encodeFactory v1).2 ≠ (encodeFactory v0).2)
    (hlen : (v0 :: v1 :: rest).length < 2 ^ 32)
    (hwf : ∀ v ∈ v0 :: v1 :: rest, (encodeFactory v).1 ≠ none) :
    writeList (v0 :: v1 :: rest) w
      = (none, w ++ ((encodeFactory v0).2 % 256 :: (beBytes 4 (v0 :: v1 :: rest).length
          ++ ((v0 :: v1 :: rest).map payload).flatten))) ∧
    ∀ (c : Fields) (name : GoString), (name, Value.list (v0 :: v1 :: rest)) ∈ c →
      (Encode c w).1 = none :=
  ⟨writeList_eq v0 (v1 :: rest) hlen hwf w, fun c _ _ => Encode_no_error c w⟩

/-- Claim C7, witness of the amended statement on `[int32 1, "a"]`. -/
theorem writeList_heterogeneous_writes_all_witness :
    writeList [Value.int32 1, Value.string [97]] []
      = (none, [] ++ ((encodeFactory (Value.int32 1)).2 % 256 ::
          (beBytes 4 [Value.int32 1, Value.string [97]].length
          ++ ([Value.int32 1, Value.string [97]].map payload).flatten))) :=
  (writeList_heterogeneous_writes_all (Value.int32 1) (Value.string [97]) [] []
    (by simp [encodeFactory, TagString, TagInt]) (by decide)
    (by
      intro v hv
      simp only [List.mem_cons, List.mem_singleton, List.not_mem_nil, or_false] at hv
      rcases hv with rfl | rfl <;> simp [encodeFactory])).1

/-- Claim C8 (the code breaks it): for the Compound with fields "a" = true and
"b" = int32 1 iterated in that order, `Encode` meets the value without a writer, stops emitting fields,
writes the End byte and returns a nil error: the output is `0A 00 00 00`. -/
theorem Encode_unrepresentable_stops_silently :
    (encodeFactory (Value.bool true)).1.isNone = true ∧
    Encode [([97], Value.bool true), ([98], Value.int32 1)] [] = (none, [10, 0, 0, 0]) := by
  constructor
  · simp [encodeFactory]
  · simp [Encode, write, compoundWrapWrite, writeString, writeShort, binaryWrite, beBytes,
      writeEach, writeCompound, writeCompoundLoop, encodeFactory, writeByte, TagCompound, TagEnd]

/-- Claim C9 (the code breaks it): `writeList` of the empty list writes no
byte at all, while `readList` needs the five header bytes: it returns the empty
list from `00 00 00 00 00` and an EOF error from the empty stream. -/
theorem writeList_empty_writes_nothing (d : Nat) (w : Writer) :
    writeList [] w = (none, w) ∧
    readList (readFuncFactory d) [0, 0, 0, 0, 0] = Outcome.ret (Value.list []) none [] ∧
    readList (readFuncFactory d) [] = Outcome.ret Value.nil (some Error.EOF) [] := by
  refine ⟨?_, ?_, rfl⟩
  · simp [writeList]
  · cases d <;> rfl

/-! ## The list header -/

/-- Claim C10: on a stream that starts with a tag byte `t` and four count
bytes, `readFuncFactory t` is nil exactly when `t = 0` or `t > 12`; if the
count is not zero and `readFuncFactory t` is nil, `readList` returns an error
having read the five header bytes only; if the count is zero, `readList`
returns the empty list with a nil error for every `t`, having read exactly the
five header bytes. -/
theorem readList_header_validation (d t b0 b1 b2 b3 : Nat) (rest : Stream) :
    (readFuncFactory d t = none ↔ (t = 0 ∨ 12 < t)) ∧
    (toSigned 32 (beNat [b0, b1, b2, b3]) ≠ 0 → readFuncFactory d t = none →
      readList (readFuncFactory d) (t :: b0 :: b1 :: b2 :: b3 :: rest)
        = Outcome.ret Value.nil (some Error.rfNil) rest) ∧
    (toSigned 32 (beNat [b0, b1, b2, b3]) = 0 →
      readList (readFuncFactory d) (t :: b0 :: b1 :: b2 :: b3 :: rest)
        = Outcome.ret (Value.list []) none rest) := by
  have hr : readInt (b0 :: b1 :: b2 :: b3 :: rest)
      = Outcome.ret (Value.int32 (toSigned 32 (beNat [b0, b1, b2, b3]))) none rest := by
    simp [readInt, binaryRead, readFull]
  refine ⟨readFuncFactory_eq_none_iff d t, ?_, ?_⟩
  · intro hn hf
    simp [readList, readByte, hr, hf, hn]
  · intro hn
    simp only [readList, readByte, hr, hn]
    cases hf : readFuncFactory d t with
    | none => simp
    | some rf => simp [readListLoop]

/-- Claim C10, witness: tag 13 with count 1 is rejected, and tag 13 with
count 0 gives the empty list, the bytes after the header left unread. -/
theorem readList_header_validation_witness :
    (toSigned 32 (beNat [0, 0, 0, 1]) ≠ 0 ∧ readFuncFactory 1 13 = none ∧
      readList (readFuncFactory 1) [13, 0, 0, 0, 1, 7, 7]
        = Outcome.ret Value.nil (some Error.rfNil) [7, 7]) ∧
    (toSigned 32 (beNat [0, 0, 0, 0]) = 0 ∧
      readList (readFuncFactory 1) [13, 0, 0, 0, 0, 7, 7]
        = Outcome.ret (Value.list []) none [7, 7]) :=
  ⟨⟨by decide, rfl,
      (readList_header_validation 1 13 0 0 0 1 [7, 7]).2.1 (by decide) rfl⟩,
    ⟨by decide, (readList_header_validation 1 13 0 0 0 0 [7, 7]).2.2 (by decide)⟩⟩

/-! ## What a successful read consumes -/

theorem readFull_ok (n : Nat) (s buf rest : Stream) (h : readFull n s = (buf, none, rest)) :
    s = buf ++ rest ∧ buf.length = n := by
  unfold readFull at h
  split_ifs at h with h0 h1 h2
  · simp only [Prod.mk.injEq] at h
    obtain ⟨rfl, -, rfl⟩ := h
    simp [h0]
  · simp only [Prod.mk.injEq] at h
    obtain ⟨rfl, -, rfl⟩ := h
    simp [h1]
  · simp at h
  · simp at h

theorem binaryRead_ok (n : Nat) (s rest : Stream) (u : Nat)
    (h : binaryRead n s = (u, none, rest)) :
    ∃ hdr, s = hdr ++ rest ∧ hdr.length = n ∧ u = beNat hdr := by
  unfold binaryRead at h
  rcases hr : readFull n s with ⟨bs, e, r⟩
  rw [hr] at h
  cases e with
  | none =>
    simp only [Prod.mk.injEq, true_and] at h
    obtain ⟨rfl, rfl⟩ := h
    obtain ⟨h1, h2⟩ := readFull_ok n s bs r hr
    exact ⟨bs, h1, h2, rfl⟩
  | some e => simp at h

theorem readInt_ok (s rest : Stream) (v : Value) (h : readInt s = Outcome.ret v none rest) :
    ∃ hdr, s = hdr ++ rest ∧ hdr.length = 4 ∧ v = Value.int32 (toSigned 32 (beNat hdr)) := by
  unfold readInt at h
  rcases hr : binaryRead 4 s with ⟨u, e, r⟩
  rw [hr] at h
  simp only [Outcome.ret.injEq] at h
  obtain ⟨rfl, rfl, rfl⟩ := h
  obtain ⟨hdr, h1, h2, rfl⟩ := binaryRead_ok 4 s r u hr
  exact ⟨hdr, h1, h2, rfl⟩

theorem readLong_ok (s rest : Stream) (v : Value) (h : readLong s = Outcome.ret v none rest) :
    ∃ hdr, s = hdr ++ rest ∧ hdr.length = 8 ∧ v = Value.int64 (toSigned 64 (beNat hdr)) := by
  unfold readLong at h
  rcases hr : binaryRead 8 s with ⟨u, e, r⟩
  rw [hr] at h
  simp only [Outcome.ret.injEq] at h
  obtain ⟨rfl, rfl, rfl⟩ := h
  obtain ⟨hdr, h1, h2, rfl⟩ := binaryRead_ok 8 s r u hr
  exact ⟨hdr, h1, h2, rfl⟩

theorem readShort_ok (s rest : Stream) (v : Value) (h : readShort s = Outcome.ret v none rest) :
    ∃ hdr, s = hdr ++ rest ∧ hdr.length = 2 ∧ v = Value.int16 (toSigned 16 (beNat hdr)) := by
  unfold readShort at h
  rcases hr : binaryRead 2 s with ⟨u, e, r⟩
  rw [hr] at h
  simp only [Outcome.ret.injEq] at h
  obtain ⟨rfl, rfl, rfl⟩ := h
  obtain ⟨hdr, h1, h2, rfl⟩ := binaryRead_ok 2 s r u hr
  exact ⟨hdr, h1, h2, rfl⟩

theorem toSigned_16_mod (u : Nat) : (toSigned 16 u % 65536).toNat = u % 65536 := by
  simp only [toSigned]
  norm_num
  split <;> omega

theorem readString_ok (s rest : Stream) (v : Value)
    (h : readString s = Outcome.ret v none rest) :
    ∃ hdr body, s = hdr ++ body ++ rest ∧ hdr.length = 2 ∧
      body.length = beNat hdr % 65536 ∧ v = Value.string body := by
  unfold readString at h
  cases hs : readShort s with
  | ret len e r =>
    rw [hs] at h
    cases e with
    | some e => simp at h
    | none =>
      obtain ⟨hdr, h1, h2, rfl⟩ := readShort_ok s r len hs
      simp only [toSigned_16_mod] at h
      rcases hr : readFull (beNat hdr % 65536) r with ⟨buf, e2, r2⟩
      rw [hr] at h
      simp only [Outcome.ret.injEq] at h
      obtain ⟨rfl, rfl, rfl⟩ := h
      obtain ⟨h3, h4⟩ := readFull_ok _ r buf r2 hr
      exact ⟨hdr, buf, by rw [h1, h3, List.append_assoc], h2, h4, rfl⟩
  | panic => rw [hs] at h; simp at h
  | stuck => rw [hs] at h; simp at h

theorem readByteArray_ok (s rest : Stream) (v : Value)
    (h : readByteArray s = Outcome.ret v none rest) :
    ∃ hdr body, s = hdr ++ body ++ rest ∧ hdr.length = 4 ∧
      0 ≤ toSigned 32 (beNat hdr) ∧ (body.length : Int) = toSigned 32 (beNat hdr) ∧
      v = Value.bytes body := by
  unfold readByteArray at h
  cases hs : readInt s with
  | ret len e r =>
    rw [hs] at h
    cases e with
    | some e =>
      cases len <;> simp at h
    | none =>
      obtain ⟨hdr, h1, h2, rfl⟩ := readInt_ok s r len hs
      simp only at h
      by_cases hneg : toSigned 32 (beNat hdr) < 0
      · simp [hneg] at h
      · simp only [hneg, if_false] at h
        rcases hr : readFull (toSigned 32 (beNat hdr)).toNat r with ⟨buf, e2, r2⟩
        rw [hr] at h
        simp only [Outcome.ret.injEq] at h
        obtain ⟨rfl, rfl, rfl⟩ := h
        obtain ⟨h3, h4⟩ := readFull_ok _ r buf r2 hr
        refine ⟨hdr, buf, by rw [h1, h3, List.append_assoc], h2, by omega, ?_, rfl⟩
        rw [h4]; omega
  | panic => rw [hs] at h; simp at h
  | stuck => rw [hs] at h; simp at h

theorem readIntArrayLoop_ok (n : Nat) (s rest : Stream) (acc : List Int) (v : Value)
    (h : readIntArrayLoop n s acc = Outcome.ret v none rest) :
    ∃ body xs, s = body ++ rest ∧ body.length = 4 * n ∧ xs.length = n ∧
      v = Value.int32s (acc ++ xs) := by
  induction n generalizing s acc with
  | zero =>
    simp only [readIntArrayLoop, Outcome.ret.injEq, true_and] at h
    obtain ⟨rfl, rfl⟩ := h
    exact ⟨[], [], by simp, rfl, rfl, by simp⟩
  | succ n ih =>
    rw [readIntArrayLoop] at h
    cases hs : readInt s with
    | ret x e r =>
      rw [hs] at h
      cases e with
      | some e => simp at h
      | none =>
        obtain ⟨hdr, h1, h2, rfl⟩ := readInt_ok s r x hs
        simp only at h
        obtain ⟨body, xs, h3, h4, h5, rfl⟩ := ih r (acc ++ [toSigned 32 (beNat hdr)]) h
        refine ⟨hdr ++ body, toSigned 32 (beNat hdr) :: xs, ?_, ?_, ?_, ?_⟩
        · rw [h1, h3, List.append_assoc]
        · rw [List.length_append, h2, h4]; omega
        · simp [h5]
        · simp
    | panic => rw [hs] at h; simp at h
    | stuck => rw [hs] at h; simp at h

theorem readLongArrayLoop_ok (n : Nat) (s rest : Stream) (acc : List Int) (v : Value)
    (h : readLongArrayLoop n s acc = Outcome.ret v none rest) :
    ∃ body xs, s = body ++ rest ∧ body.length = 8 * n ∧ xs.length = n ∧
      v = Value.int64s (acc ++ xs) := by
  induction n generalizing s acc with
  | zero =>
    simp only [readLongArrayLoop, Outcome.ret.injEq, true_and] at h
    obtain ⟨rfl, rfl⟩ := h
    exact ⟨[], [], by simp, rfl, rfl, by simp⟩
  | succ n ih =>
    rw [readLongArrayLoop] at h
    cases hs : readLong s with
    | ret x e r =>
      rw [hs] at h
      cases e with
      | some e => simp at h
      | none =>
        obtain ⟨hdr, h1, h2, rfl⟩ := readLong_ok s r x hs
        simp only at h
        obtain ⟨body, xs, h3, h4, h5, rfl⟩ := ih r (acc ++ [toSigned 64 (beNat hdr)]) h
        refine ⟨hdr ++ body, toSigned 64 (beNat hdr) :: xs, ?_, ?_, ?_, ?_⟩
        · rw [h1, h3, List.append_assoc]
        · rw [List.length_append, h2, h4]; omega
        · simp [h5]
        · simp
    | panic => rw [hs] at h; simp at h
    | stuck => rw [hs] at h; simp at h

theorem readIntArray_ok (s rest : Stream) (v : Value)
    (h : readIntArray s = Outcome.ret v none rest) :
    ∃ hdr body xs, s = hdr ++ body ++ rest ∧ hdr.length = 4 ∧
      0 ≤ toSigned 32 (beNat hdr) ∧ (xs.length : Int) = toSigned 32 (beNat hdr) ∧
      body.length = 4 * xs.length ∧ v = Value.int32s xs := by
  unfold readIntArray at h
  cases hs : readInt s with
  | ret len e r =>
    rw [hs] at h
    cases e with
    | some e => simp at h
    | none =>
      obtain ⟨hdr, h1, h2, rfl⟩ := readInt_ok s r len hs
      simp only at h
      by_cases hneg : toSigned 32 (beNat hdr) < 0
      · simp [hneg] at h
      · simp only [hneg, if_false] at h
        obtain ⟨body, xs, h3, h4, h5, rfl⟩ := readIntArrayLoop_ok _ r rest [] v h
        refine ⟨hdr, body, xs, by rw [h1, h3, List.append_assoc], h2, by omega, ?_, ?_, by simp⟩
        · rw [h5]; omega
        · rw [h4, h5]
  | panic => rw [hs] at h; simp at h
  | stuck => rw [hs] at h; simp at h

theorem readLongArray_ok (s rest : Stream) (v : Value)
    (h : readLongArray s = Outcome.ret v none rest) :
    ∃ hdr body xs, s = hdr ++ body ++ rest ∧ hdr.length = 4 ∧
      0 ≤ toSigned 32 (beNat hdr) ∧ (xs.length : Int) = toSigned 32 (beNat hdr) ∧
      body.length = 8 * xs.length ∧ v = Value.int64s xs := by
  unfold readLongArray at h
  cases hs : readInt s with
  | ret len e r =>
    rw [hs] at h
    cases e with
    | some e => simp at h
    | none =>
      obtain ⟨hdr, h1, h2, rfl⟩ := readInt_ok s r len hs
      simp only at h
      by_cases hneg : toSigned 32 (beNat hdr) < 0
      · simp [hneg] at h
      · simp only [hneg, if_false] at h
        obtain ⟨body, xs, h3, h4, h5, rfl⟩ := readLongArrayLoop_ok _ r rest [] v h
        refine ⟨hdr, body, xs, by rw [h1, h3, List.append_assoc], h2, by omega, ?_, ?_, by simp⟩
        · rw [h5]; omega
        · rw [h4, h5]
  | panic => rw [hs] at h; simp at h
  | stuck => rw [hs] at h; simp at h

/-! ## Reads end within their input -/

theorem readFull_length (n : Nat) (s : Stream) :
    (readFull n s).2.2.length ≤ s.length := by
  unfold readFull
  split_ifs <;> simp

theorem binaryRead_length (n : Nat) (s : Stream) :
    (binaryRead n s).2.2.length ≤ s.length := by
  have h := readFull_length n s
  unfold binaryRead
  rcases hr : readFull n s with ⟨bs, e, r⟩
  rw [hr] at h
  cases e <;> simpa using h

theorem readByte_within (s : Stream) : (readByte s).Within s := by
  cases s <;> simp [readByte, Outcome.Within]

theorem readShort_within (s : Stream) : (readShort s).Within s := by
  simpa [readShort, Outcome.Within] using binaryRead_length 2 s

theorem readInt_within (s : Stream) : (readInt s).Within s := by
  simpa [readInt, Outcome.Within] using binaryRead_length 4 s

theorem readLong_within (s : Stream) : (readLong s).Within s := by
  simpa [readLong, Outcome.Within] using binaryRead_length 8 s

theorem readFloat_within (s : Stream) : (readFloat s).Within s := by
  simpa [readFloat, Outcome.Within] using binaryRead_length 4 s

theorem readDouble_within (s : Stream) : (readDouble s).Within s := by
  simpa [readDouble, Outcome.Within] using binaryRead_length 8 s

theorem readInt_eq (s : Stream) :
    readInt s = Outcome.ret (Value.int32 (toSigned 32 (binaryRead 4 s).1))
      (binaryRead 4 s).2.1 (binaryRead 4 s).2.2 := rfl

theorem readLong_eq (s : Stream) :
    readLong s = Outcome.ret (Value.int64 (toSigned 64 (binaryRead 8 s).1))
      (binaryRead 8 s).2.1 (binaryRead 8 s).2.2 := rfl

theorem readShort_eq (s : Stream) :
    readShort s = Outcome.ret (Value.int16 (toSigned 16 (binaryRead 2 s).1))
      (binaryRead 2 s).2.1 (binaryRead 2 s).2.2 := rfl

theorem readString_within (s : Stream) : (readString s).Within s := by
  have h1 := binaryRead_length 2 s
  simp only [readString, readShort_eq]
  cases (binaryRead 2 s).2.1 with
  | some e => simpa [Outcome.Within] using h1
  | none =>
    have h2 := readFull_length (toSigned 16 (binaryRead 2 s).1 % 65536).toNat (binaryRead 2 s).2.2
    simp only
    rcases hr : readFull (toSigned 16 (binaryRead 2 s).1 % 65536).toNat (binaryRead 2 s).2.2
      with ⟨buf, e2, r2⟩
    rw [hr] at h2
    simp only [Outcome.Within] at h2 ⊢
    omega

theorem readByteArray_within (s : Stream) : (readByteArray s).Within s := by
  have h1 := binaryRead_length 4 s
  simp only [readByteArray, readInt_eq]
  cases (binaryRead 4 s).2.1 with
  | some e => simpa [Outcome.Within] using h1
  | none =>
    simp only
    split_ifs
    · simp [Outcome.Within]
    · have h2 := readFull_length (toSigned 32 (binaryRead 4 s).1).toNat (binaryRead 4 s).2.2
      rcases hr : readFull (toSigned 32 (binaryRead 4 s).1).toNat (binaryRead 4 s).2.2
        with ⟨buf, e2, r2⟩
      rw [hr] at h2
      simp only [Outcome.Within] at h2 ⊢
      omega

theorem readIntArrayLoop_within (n : Nat) (s : Stream) (acc : List Int) :
    (readIntArrayLoop n s acc).Within s := by
  induction n generalizing s acc with
  | zero => simp [readIntArrayLoop, Outcome.Within]
  | succ n ih =>
    have h1 := binaryRead_length 4 s
    simp only [readIntArrayLoop, readInt_eq]
    cases (binaryRead 4 s).2.1 with
    | some e => simpa [Outcome.Within] using h1
    | none =>
      have h2 := ih (binaryRead 4 s).2.2 (acc ++ [toSigned 32 (binaryRead 4 s).1])
      simp only
      cases hl : readIntArrayLoop n (binaryRead 4 s).2.2 (acc ++ [toSigned 32 (binaryRead 4 s).1]) with
      | ret v e r => rw [hl] at h2; simp only [Outcome.Within] at h2 ⊢; omega
      | panic => simp [Outcome.Within]
      | stuck => rw [hl] at h2; simp [Outcome.Within] at h2

theorem readLongArrayLoop_within (n : Nat) (s : Stream) (acc : List Int) :
    (readLongArrayLoop n s acc).Within s := by
  induction n generalizing s acc with
  | zero => simp [readLongArrayLoop, Outcome.Within]
  | succ n ih =>
    have h1 := binaryRead_length 8 s
    simp only [readLongArrayLoop, readLong_eq]
    cases (binaryRead 8 s).2.1 with
    | some e => simpa [Outcome.Within] using h1
    | none =>
      have h2 := ih (binaryRead 8 s).2.2 (acc ++ [toSigned 64 (binaryRead 8 s).1])
      simp only
      cases hl : readLongArrayLoop n (binaryRead 8 s).2.2 (acc ++ [toSigned 64 (binaryRead 8 s).1]) with
      | ret v e r => rw [hl] at h2; simp only [Outcome.Within] at h2 ⊢; omega
      | panic => simp [Outcome.Within]
      | stuck => rw [hl] at h2; simp [Outcome.Within] at h2

theorem Outcome.Within.trans {α : Type} {o : Outcome α} {s t : Stream} (h : o.Within s)
    (hst : s.length ≤ t.length) : o.Within t := by
  cases o with
  | ret v e r => simp only [Outcome.Within] at h ⊢; omega
  | panic => trivial
  | stuck => exact h

theorem readIntArray_within (s : Stream) : (readIntArray s).Within s := by
  have h1 := binaryRead_length 4 s
  simp only [readIntArray, readInt_eq]
  cases (binaryRead 4 s).2.1 with
  | some e => simpa [Outcome.Within] using h1
  | none =>
    simp only
    split_ifs
    · simp [Outcome.Within]
    · exact (readIntArrayLoop_within _ _ _).trans h1

theorem readLongArray_within (s : Stream) : (readLongArray s).Within s := by
  have h1 := binaryRead_length 4 s
  simp only [readLongArray, readInt_eq]
  cases (binaryRead 4 s).2.1 with
  | some e => simpa [Outcome.Within] using h1
  | none =>
    simp only
    split_ifs
    · simp [Outcome.Within]
    · exact (readLongArrayLoop_within _ _ _).trans h1

/-! ## The nesting budget never runs out -/

theorem readString_ok_length (s rest : Stream) (v : Value)
    (h : readString s = Outcome.ret v none rest) :
    rest.length + 2 ≤ s.length ∧ ∃ name, v = Value.string name := by
  obtain ⟨hdr, body, h1, h2, -, h4⟩ := readString_ok s rest v h
  refine ⟨?_, body, h4⟩
  rw [h1]; simp only [List.length_append]; omega

theorem compoundWrapRead_agree (rf rg : ReadFunc) (m : Nat)
    (h : ∀ s : Stream, s.length < m → rf s = rg s ∧ (rf s).Within s)
    (t : Stream) (ht : t.length ≤ m + 1) :
    compoundWrapRead rf t = compoundWrapRead rg t ∧ (compoundWrapRead rf t).Within t ∧
    ∀ fv rest2, compoundWrapRead rf t = Outcome.ret fv none rest2 →
      rest2.length + 2 ≤ t.length ∧ ∃ name value, fv = some (name, value) := by
  have hw := readString_within t
  simp only [compoundWrapRead]
  cases hs : readString t with
  | ret n e r =>
    rw [hs] at hw
    simp only [Outcome.Within] at hw
    cases e with
    | some e => simp [Outcome.Within, hw]
    | none =>
      obtain ⟨hlen, name, rfl⟩ := readString_ok_length t r n hs
      obtain ⟨heq, hin⟩ := h r (by omega)
      simp only [← heq]
      cases hr : rf r with
      | ret v e2 r2 =>
        rw [hr] at hin
        simp only [Outcome.Within] at hin
        cases e2 with
        | some e2 =>
          refine ⟨trivial, by simp only [Outcome.Within]; omega, ?_⟩
          intro fv rest2 hh; simp at hh
        | none =>
          refine ⟨trivial, by simp only [Outcome.Within]; omega, ?_⟩
          intro fv rest2 hh
          simp only [Outcome.ret.injEq, true_and] at hh
          obtain ⟨rfl, rfl⟩ := hh
          exact ⟨by omega, name, v, rfl⟩
      | panic =>
        refine ⟨trivial, trivial, ?_⟩
        intro fv rest2 hh; simp at hh
      | stuck => rw [hr] at hin; exact absurd hin (by simp [Outcome.Within])
  | panic => rw [hs] at hw; simp [Outcome.Within]
  | stuck => rw [hs] at hw; exact absurd hw (by simp [Outcome.Within])

theorem readCompoundLoop_agree (f g : Nat → Option ReadFunc) (m : Nat) (h : Agree f g m)
    (k : Nat) : ∀ (k' : Nat) (s : Stream) (out : Fields),
      s.length ≤ m → s.length < k → s.length < k' →
      readCompoundLoop f k s out = readCompoundLoop g k' s out ∧
      ((∃ c rest, readCompoundLoop f k s out = Outcome.ret (Value.compound c) none rest ∧
          rest.length ≤ s.length) ∨
        readCompoundLoop f k s out = Outcome.panic) := by
  induction k with
  | zero => intro k' s out _ hk _; omega
  | succ k ih =>
    intro k' s out hm hk hk'
    cases k' with
    | zero => omega
    | succ k' =>
      cases s with
      | nil => simp [readCompoundLoop, readByte]
      | cons b t =>
        simp only [List.length_cons] at hm hk hk'
        simp only [readCompoundLoop, readByte]
        rcases h b with ⟨hf, hg⟩ | ⟨rf, rg, hf, hg, hfg⟩
        · simp only [hf, hg]
          exact ⟨trivial, Or.inl ⟨out, t, rfl, by simp⟩⟩
        · simp only [hf, hg]
          obtain ⟨heq, hin, hok⟩ := compoundWrapRead_agree rf rg m hfg t (by omega)
          rw [← heq]
          cases hc : compoundWrapRead rf t with
          | ret fv e r2 =>
            rw [hc] at hin
            simp only [Outcome.Within] at hin
            cases e with
            | some e =>
              refine ⟨rfl, Or.inl ⟨out, r2, rfl, ?_⟩⟩
              simp only [List.length_cons]; omega
            | none =>
              obtain ⟨hlen, name, value, rfl⟩ := hok fv r2 hc
              obtain ⟨e1, e2⟩ := ih k' r2 (Fields.set out name value) (by omega) (by omega)
                (by omega)
              refine ⟨e1, ?_⟩
              rcases e2 with ⟨c, rest, e3, e4⟩ | e3
              · exact Or.inl ⟨c, rest, e3, by simp only [List.length_cons]; omega⟩
              · exact Or.inr e3
          | panic => exact ⟨rfl, Or.inr rfl⟩
          | stuck => rw [hc] at hin; exact absurd hin (by simp [Outcome.Within])

theorem readCompound_agree (f g : Nat → Option ReadFunc) (m : Nat) (h : Agree f g m)
    (s : Stream) (hs : s.length ≤ m) :
    readCompound f s = readCompound g s ∧
    ((∃ c rest, readCompound f s = Outcome.ret (Value.compound c) none rest ∧
        rest.length ≤ s.length) ∨ readCompound f s = Outcome.panic) :=
  readCompoundLoop_agree f g m h (s.length + 1) (s.length + 1) s [] hs (by omega) (by omega)

theorem readCompound_within (f g : Nat → Option ReadFunc) (m : Nat) (h : Agree f g m)
    (s : Stream) (hs : s.length ≤ m) : (readCompound f s).Within s := by
  rcases (readCompound_agree f g m h s hs).2 with ⟨c, rest, e, hl⟩ | e
  · rw [e]; exact hl
  · rw [e]; trivial

theorem readListLoop_agree (rf rg : ReadFunc) (m : Nat)
    (h : ∀ s : Stream, s.length < m → rf s = rg s ∧ (rf s).Within s) (n : Nat) :
    ∀ (s : Stream) (acc : List Value), s.length < m →
      readListLoop rf n s acc = readListLoop rg n s acc ∧ (readListLoop rf n s acc).Within s := by
  induction n with
  | zero => intro s acc _; simp [readListLoop, Outcome.Within]
  | succ n ih =>
    intro s acc hs
    obtain ⟨heq, hin⟩ := h s hs
    simp only [readListLoop, ← heq]
    cases hr : rf s with
    | ret v e r =>
      rw [hr] at hin
      simp only [Outcome.Within] at hin
      cases e with
      | some e => simp [Outcome.Within, hin]
      | none =>
        obtain ⟨e1, e2⟩ := ih r (acc ++ [v]) (by omega)
        exact ⟨e1, e2.trans hin⟩
    | panic => simp [Outcome.Within]
    | stuck => rw [hr] at hin; exact absurd hin (by simp [Outcome.Within])

theorem readList_agree (f g : Nat → Option ReadFunc) (m : Nat) (h : Agree f g m)
    (s : Stream) (hs : s.length ≤ m) :
    readList f s = readList g s ∧ (readList f s).Within s := by
  cases s with
  | nil => simp [readList, readByte, Outcome.Within]
  | cons b t =>
    simp only [List.length_cons] at hs
    have hl := binaryRead_length 4 t
    simp only [readList, readByte, readInt_eq]
    cases (binaryRead 4 t).2.1 with
    | some e => simp only [Outcome.Within, List.length_cons]; exact ⟨trivial, by omega⟩
    | none =>
      simp only
      rcases h b with ⟨hf, hg⟩ | ⟨rf, rg, hf, hg, hfg⟩
      · simp only [hf, hg]
        split_ifs <;> simp only [Outcome.Within, List.length_cons] <;> exact ⟨trivial, by omega⟩
      · simp only [hf, hg]
        split_ifs
        · exact ⟨rfl, trivial⟩
        · obtain ⟨e1, e2⟩ := readListLoop_agree rf rg m hfg
            (toSigned 32 (binaryRead 4 t).1).toNat (binaryRead 4 t).2.2 [] (by omega)
          exact ⟨e1, e2.trans (by simp only [List.length_cons]; omega)⟩

theorem Agree.left {f g : Nat → Option ReadFunc} {m : Nat} (h : Agree f g m) : Agree f f m := by
  intro id
  rcases h id with ⟨hf, _⟩ | ⟨rf, rg, hf, _, hfg⟩
  · exact Or.inl ⟨hf, hf⟩
  · exact Or.inr ⟨rf, rf, hf, hf, fun s hs => ⟨rfl, (hfg s hs).2⟩⟩

theorem Agree.trans_le {f g k : Nat → Option ReadFunc} {m m' : Nat} (h1 : Agree f g m)
    (h2 : Agree g k m') (hm : m ≤ m') : Agree f k m := by
  intro id
  rcases h1 id with ⟨hf, hg⟩ | ⟨rf, rg, hf, hg, hfg⟩
  · rcases h2 id with ⟨_, hk⟩ | ⟨rg', rk, hg', _, _⟩
    · exact Or.inl ⟨hf, hk⟩
    · rw [hg] at hg'; cases hg'
  · rcases h2 id with ⟨hg', _⟩ | ⟨rg', rk, hg', hk, hgk⟩
    · rw [hg] at hg'; cases hg'
    · rw [hg] at hg'
      cases hg'
      refine Or.inr ⟨rf, rk, hf, hk, fun s hs => ?_⟩
      obtain ⟨e1, w1⟩ := hfg s hs
      obtain ⟨e2, _⟩ := hgk s (by omega)
      exact ⟨e1.trans e2, w1⟩

theorem readFuncFactory_agree_succ (d : Nat) :
    Agree (readFuncFactory d) (readFuncFactory (d + 1)) d := by
  induction d with
  | zero =>
    intro id
    by_cases hid : id = 0 ∨ 12 < id
    · exact Or.inl ⟨(readFuncFactory_eq_none_iff 0 id).mpr hid,
        (readFuncFactory_eq_none_iff 1 id).mpr hid⟩
    · cases hf : readFuncFactory 0 id with
      | none => exact absurd ((readFuncFactory_eq_none_iff 0 id).mp hf) hid
      | some rf =>
        cases hg : readFuncFactory 1 id with
        | none => exact absurd ((readFuncFactory_eq_none_iff 1 id).mp hg) hid
        | some rg => exact Or.inr ⟨rf, rg, rfl, rfl, fun s hs => absurd hs (Nat.not_lt_zero _)⟩
  | succ d ih =>
    intro id
    by_cases hid : id = 0 ∨ 12 < id
    · exact Or.inl ⟨(readFuncFactory_eq_none_iff (d + 1) id).mpr hid,
        (readFuncFactory_eq_none_iff (d + 2) id).mpr hid⟩
    · have h1 : 1 ≤ id := by omega
      have h2 : id ≤ 12 := by omega
      obtain ⟨a1, a2, a3, a4, a5, a6, a7, a8, a11, a12⟩ := readFuncFactory_leaf (d + 1)
      obtain ⟨b1, b2, b3, b4, b5, b6, b7, b8, b11, b12⟩ := readFuncFactory_leaf (d + 2)
      interval_cases id
      · exact Or.inr ⟨_, _, a1, b1, fun s _ => ⟨rfl, readByte_within s⟩⟩
      · exact Or.inr ⟨_, _, a2, b2, fun s _ => ⟨rfl, readShort_within s⟩⟩
      · exact Or.inr ⟨_, _, a3, b3, fun s _ => ⟨rfl, readInt_within s⟩⟩
      · exact Or.inr ⟨_, _, a4, b4, fun s _ => ⟨rfl, readLong_within s⟩⟩
      · exact Or.inr ⟨_, _, a5, b5, fun s _ => ⟨rfl, readFloat_within s⟩⟩
      · exact Or.inr ⟨_, _, a6, b6, fun s _ => ⟨rfl, readDouble_within s⟩⟩
      · exact Or.inr ⟨_, _, a7, b7, fun s _ => ⟨rfl, readByteArray_within s⟩⟩
      · exact Or.inr ⟨_, _, a8, b8, fun s _ => ⟨rfl, readString_within s⟩⟩
      · exact Or.inr ⟨_, _, readFuncFactory_list d, readFuncFactory_list (d + 1),
          fun s hs => readList_agree _ _ d ih s (by omega)⟩
      · exact Or.inr ⟨_, _, readFuncFactory_compound d, readFuncFactory_compound (d + 1),
          fun s hs => ⟨(readCompound_agree _ _ d ih s (by omega)).1,
            readCompound_within _ _ d ih s (by omega)⟩⟩
      · exact Or.inr ⟨_, _, a11, b11, fun s _ => ⟨rfl, readIntArray_within s⟩⟩
      · exact Or.inr ⟨_, _, a12, b12, fun s _ => ⟨rfl, readLongArray_within s⟩⟩

theorem readFuncFactory_agree (d d' : Nat) (h : d ≤ d') :
    Agree (readFuncFactory d) (readFuncFactory d') d := by
  induction d', h using Nat.le_induction with
  | base => exact (readFuncFactory_agree_succ d).left
  | succ n hn ih => exact ih.trans_le (readFuncFactory_agree_succ n) hn

theorem readString_two (b0 b1 : Nat) (tl : Stream) (h : beNat [b0, b1] % 65536 ≤ tl.length) :
    readString (b0 :: b1 :: tl)
      = Outcome.ret (Value.string (tl.take (beNat [b0, b1] % 65536))) none
          (tl.drop (beNat [b0, b1] % 65536)) := by
  have h1 : readShort (b0 :: b1 :: tl)
      = Outcome.ret (Value.int16 (toSigned 16 (beNat [b0, b1]))) none tl := by
    simp [readShort, binaryRead, readFull]
  simp only [readString, h1, toSigned_16_mod]
  unfold readFull
  by_cases h0 : beNat [b0, b1] % 65536 = 0
  · simp [h0]
  · simp [h0, h]

theorem readString_short (t : Stream)
    (h : ∀ b0 b1 tl, t = b0 :: b1 :: tl → ¬ beNat [b0, b1] % 65536 ≤ tl.length) :
    ∃ v e rest, readString t = Outcome.ret v (some e) rest := by
  cases hs : readString t with
  | ret v e rest =>
    cases e with
    | some e => exact ⟨v, e, rest, rfl⟩
    | none =>
      exfalso
      obtain ⟨hdr, body, h1, h2, h3, -⟩ := readString_ok t rest v hs
      match hdr, h2 with
      | [b0, b1], _ =>
        refine h b0 b1 (body ++ rest) (by simpa using h1) ?_
        rw [List.length_append, h3]; omega
  | panic =>
    have := readString_within t
    rw [hs] at this
    simp [readString, readShort_eq] at hs
    split at hs <;> simp at hs
  | stuck =>
    have := readString_within t
    rw [hs] at this
    exact absurd this (by simp [Outcome.Within])


theorem ParseAt_not_compound (d : Nat) (s : Stream) (h : s.head? ≠ some TagCompound) :
    ParseAt d s = Outcome.ret none (some Error.notInCompound) (s.drop 1) := by
  cases s with
  | nil => rfl
  | cons b rest =>
    have hb : b ≠ TagCompound := by
      intro hb; apply h; simp [hb]
    simp [ParseAt, readByte, hb]

theorem ParseAt_name_short (d : Nat) (t : Stream)
    (h : rootNameReadable (TagCompound :: t) = false) :
    ∃ rest, ParseAt d (TagCompound :: t) = Outcome.ret none (some Error.parseNil) rest := by
  have hs : ∃ v e rest, readString t = Outcome.ret v (some e) rest := by
    apply readString_short
    intro b0 b1 tl ht hle
    subst ht
    simp [rootNameReadable, hle] at h
  obtain ⟨v, e, rest, hs⟩ := hs
  exact ⟨rest, by simp [ParseAt, readByte, compoundWrapRead, hs]⟩

theorem ParseAt_name_ok (d : Nat) (t : Stream) (hd : t.length + 1 ≤ d)
    (h : rootNameReadable (TagCompound :: t) = true) :
    (∃ c rest, ParseAt d (TagCompound :: t) = Outcome.ret (some c) none rest ∧
        rest.length ≤ t.length) ∨
      ParseAt d (TagCompound :: t) = Outcome.panic := by
  match t, h with
  | b0 :: b1 :: tl, h =>
    have hle : beNat [b0, b1] % 65536 ≤ tl.length := by
      simpa [rootNameReadable] using h
    have hs := readString_two b0 b1 tl hle
    have hagree := readFuncFactory_agree d d (le_refl d)
    have hlen : (tl.drop (beNat [b0, b1] % 65536)).length ≤ d := by
      simp only [List.length_drop, List.length_cons] at hd ⊢; omega
    rcases (readCompound_agree _ _ d hagree _ hlen).2 with ⟨c, rest, e, hl⟩ | e
    · refine Or.inl ⟨c, rest, by simp [ParseAt, readByte, compoundWrapRead, hs, e], ?_⟩
      simp only [List.length_drop, List.length_cons] at hl ⊢; omega
    · exact Or.inr (by simp [ParseAt, readByte, compoundWrapRead, hs, e])

theorem ParseAt_budget (d : Nat) (s : Stream) (hd : s.length ≤ d) :
    ParseAt d s = ParseAt s.length s := by
  by_cases hh : s.head? = some TagCompound
  · match s, hh with
    | b :: t, hh =>
      have hb : b = TagCompound := by simpa using hh
      subst hb
      have hagree := readFuncFactory_agree (t.length + 1) d hd
      have h2 : ∀ s' : Stream, s'.length < t.length + 1 →
          readCompound (readFuncFactory (t.length + 1)) s'
            = readCompound (readFuncFactory d) s' ∧
          (readCompound (readFuncFactory (t.length + 1)) s').Within s' := by
        intro s' hs'
        exact ⟨(readCompound_agree _ _ _ hagree s' (by omega)).1,
          readCompound_within _ _ _ hagree s' (by omega)⟩
      have h3 := (compoundWrapRead_agree _ _ (t.length + 1) h2 t (by omega)).1
      simp only [ParseAt, readByte, List.length_cons, h3]
  · rw [ParseAt_not_compound d s hh, ParseAt_not_compound s.length s hh]

/-! ## Negative lengths -/

/-- Claim C11 (the code breaks it): on the length prefix `FF FF FF FF`, which
is -1, `readByteArray`, `readIntArray`, `readLongArray` and `readList` with
element tag Int do not return an error: `make` is called with a negative
length and the call panics; `Parse` of a root Compound holding such a field
panics as well. -/
theorem negative_length_panics (d : Nat) :
    readInt [255, 255, 255, 255] = Outcome.ret (Value.int32 (-1)) none [] ∧
    readByteArray [255, 255, 255, 255] = Outcome.panic ∧
    readIntArray [255, 255, 255, 255] = Outcome.panic ∧
    readLongArray [255, 255, 255, 255] = Outcome.panic ∧
    readList (readFuncFactory d) [3, 255, 255, 255, 255] = Outcome.panic ∧
    Parse [10, 0, 0, 7, 0, 1, 97, 255, 255, 255, 255, 0] = Outcome.panic := by
  refine ⟨rfl, rfl, rfl, rfl, ?_, rfl⟩
  cases d <;> rfl

/-! ## Exact consumption -/

/-- Claim C12: whenever the decode succeeds, `readString` has consumed the two
length bytes and exactly `n` further bytes, `n` being the length bytes read as
an unsigned big-endian number (0 to 65535), and returns exactly those `n`
bytes; `readByteArray`, `readIntArray` and `readLongArray` have consumed the
four length bytes, which hold a non-negative int32 `n`, and exactly `n`, `4n`
and `8n` further bytes, and return exactly `n` elements; the input after
those bytes is left unread. -/
theorem length_prefix_exact (s rest : Stream) (v : Value) :
    (readString s = Outcome.ret v none rest →
      ∃ b0 b1 body, s = [b0, b1] ++ body ++ rest ∧
        body.length = (b0 * 256 + b1) % 65536 ∧ v = Value.string body) ∧
    (readByteArray s = Outcome.ret v none rest →
      ∃ hdr body, s = hdr ++ body ++ rest ∧ hdr.length = 4 ∧
        0 ≤ toSigned 32 (beNat hdr) ∧ (body.length : Int) = toSigned 32 (beNat hdr) ∧
        v = Value.bytes body) ∧
    (readIntArray s = Outcome.ret v none rest →
      ∃ hdr body xs, s = hdr ++ body ++ rest ∧ hdr.length = 4 ∧
        0 ≤ toSigned 32 (beNat hdr) ∧ (xs.length : Int) = toSigned 32 (beNat hdr) ∧
        body.length = 4 * xs.length ∧ v = Value.int32s xs) ∧
    (readLongArray s = Outcome.ret v none rest →
      ∃ hdr body xs, s = hdr ++ body ++ rest ∧ hdr.length = 4 ∧
        0 ≤ toSigned 32 (beNat hdr) ∧ (xs.length : Int) = toSigned 32 (beNat hdr) ∧
        body.length = 8 * xs.length ∧ v = Value.int64s xs) := by
  refine ⟨?_, readByteArray_ok s rest v, readIntArray_ok s rest v, readLongArray_ok s rest v⟩
  intro h
  obtain ⟨hdr, body, h1, h2, h3, h4⟩ := readString_ok s rest v h
  match hdr, h2 with
  | [b0, b1], _ =>
    refine ⟨b0, b1, body, h1, ?_, h4⟩
    rw [h3]
    simp [beNat]

/-- Claim C12, witness: a string with length bytes `80 00` would hold 32768
bytes; here a two-byte string, a two-byte array, one int32 and one int64, each
followed by the unread byte 7. -/
theorem length_prefix_exact_witness :
    (∃ b0 b1 body, ([0, 2, 97, 98, 7] : Stream) = [b0, b1] ++ body ++ [7] ∧
        body.length = (b0 * 256 + b1) % 65536 ∧ Value.string [97, 98] = Value.string body) ∧
    (∃ hdr body, ([0, 0, 0, 2, 97, 98, 7] : Stream) = hdr ++ body ++ [7] ∧ hdr.length = 4 ∧
        0 ≤ toSigned 32 (beNat hdr) ∧ (body.length : Int) = toSigned 32 (beNat hdr) ∧
        Value.bytes [97, 98] = Value.bytes body) ∧
    (∃ hdr body xs, ([0, 0, 0, 1, 0, 0, 0, 5, 7] : Stream) = hdr ++ body ++ [7] ∧
        hdr.length = 4 ∧ 0 ≤ toSigned 32 (beNat hdr) ∧
        (xs.length : Int) = toSigned 32 (beNat hdr) ∧
        body.length = 4 * xs.length ∧ Value.int32s [5] = Value.int32s xs) ∧
    (∃ hdr body xs, ([0, 0, 0, 1, 0, 0, 0, 0, 0, 0, 0, 5, 7] : Stream) = hdr ++ body ++ [7] ∧
        hdr.length = 4 ∧ 0 ≤ toSigned 32 (beNat hdr) ∧
        (xs.length : Int) = toSigned 32 (beNat hdr) ∧
        body.length = 8 * xs.length ∧ Value.int64s [5] = Value.int64s xs) :=
  ⟨(length_prefix_exact [0, 2, 97, 98, 7] [7] (Value.string [97, 98])).1 rfl,
   (length_prefix_exact [0, 0, 0, 2, 97, 98, 7] [7] (Value.bytes [97, 98])).2.1 rfl,
   (length_prefix_exact [0, 0, 0, 1, 0, 0, 0, 5, 7] [7] (Value.int32s [5])).2.2.1 rfl,
   (length_prefix_exact [0, 0, 0, 1, 0, 0, 0, 0, 0, 0, 0, 5, 7] [7] (Value.int64s [5])).2.2.2 rfl⟩

/-! ## Wire layout and scalars -/

/-- Claim C13: when every value of the Compound has a writer, `Encode` returns
a nil error and appends exactly the byte 0x0A, the empty root name `00 00`,
then for each field in the order of emission its tag byte, the big-endian
uint16 length of its name, the name bytes and the payload its writer writes,
and last a single End byte; for the empty Compound that is `0A 00 00 00`. -/
theorem Encode_wire_layout (c : Fields) (w : Writer)
    (h : ∀ p ∈ c, (encodeFactory p.2).1 ≠ none) :
    Encode c w = (none, w ++ ([10, 0, 0] ++ (c.map (fun p =>
        [(encodeFactory p.2).2] ++ beBytes 2 (p.1.length % 2 ^ 16) ++ p.1.map (· % 256)
          ++ payload p.2)).flatten ++ [0])) ∧
    Encode [] w = (none, w ++ [10, 0, 0, 0]) := by
  have hmap : c.map (fun p => [(encodeFactory p.2).2] ++ beBytes 2 (p.1.length % 2 ^ 16)
      ++ p.1.map (· % 256) ++ payload p.2) = c.map fieldBytes := by
    apply List.map_congr_left
    intro p hp
    have h1 : (encodeFactory p.2).2 ≤ 12 := by
      cases hv : p.2 <;> simp [encodeFactory] <;> decide
    simp [fieldBytes, Nat.mod_eq_of_lt (show (encodeFactory p.2).2 < 256 by omega)]
  constructor
  · rw [hmap, Encode_eq c h]; simp
  · rw [Encode_eq [] (by simp)]; simp

/-- Claim C13, witness: the Compound with the single field "a" = int32 1. -/
theorem Encode_wire_layout_witness :
    (∀ p ∈ [(([97] : GoString), Value.int32 1)], (encodeFactory p.2).1 ≠ none) ∧
    Encode [([97], Value.int32 1)] []
      = (none, [] ++ ([10, 0, 0] ++ ([(([97] : GoString), Value.int32 1)].map (fun p =>
        [(encodeFactory p.2).2] ++ beBytes 2 (p.1.length % 2 ^ 16) ++ p.1.map (· % 256)
          ++ payload p.2)).flatten ++ [0])) :=
  ⟨by simp [encodeFactory],
   (Encode_wire_layout [([97], Value.int32 1)] [] (by simp [encodeFactory])).1⟩

/-- Claim C14 (the code breaks it): for the empty list `encodeFactory` returns
a writer and the tag List, and `readFuncFactory` has a decoder for that tag,
but the writer writes no byte and the decoder fails on the bytes written with
an EOF error instead of yielding a list. -/
theorem tag_fidelity_fails_on_empty_list (d : Nat) :
    (∃ wf, encodeFactory (Value.list []) = (some wf, TagList) ∧ wf [] = (none, [])) ∧
    payload (Value.list []) = [] ∧
    readFuncFactory (d + 1) TagList = some (readList (readFuncFactory d)) ∧
    readList (readFuncFactory d) (payload (Value.list []))
      = Outcome.ret Value.nil (some Error.EOF) [] := by
  have hp : payload (Value.list []) = [] := by
    simp [payload, encodeFactory, writeList]
  refine ⟨⟨writeList [], by simp [encodeFactory], by simp [writeList]⟩, hp, rfl, ?_⟩
  rw [hp]; rfl

/-- Claim C15, counterexample: `encodeFactory` of the int8 value -1 writes the
single byte 0xFF under tag Byte, and `readByte` decodes that byte to the
unsigned value 255 of type uint8, not to the signed value -1. -/
theorem readByte_unsigned_counterexample :
    (encodeFactory (Value.int8 (-1))).2 = TagByte ∧
    payload (Value.int8 (-1)) = [255] ∧
    readByte [255] = Outcome.ret (Value.uint8 255) none [] ∧
    Value.uint8 255 ≠ Value.int8 (-1) := by
  refine ⟨by simp [encodeFactory], ?_, rfl, by simp⟩
  simp [payload, encodeFactory, writeByte_eq, toUnsigned]

/-- Claim C15, amended: for every int8 value `x` in -128..127, the writer
chosen by `encodeFactory` writes the single byte `x mod 256`, and the Byte
decoder `readByte` yields that byte as the unsigned uint8 value `x mod 256`
with a nil error (0xFF decodes to 255); Short, Int and Long payloads do decode
to the signed value written. -/
theorem readByte_decodes_unsigned (x : Int) (h1 : -128 ≤ x) (h2 : x < 128) (rest : Stream) :
    (encodeFactory (Value.int8 x)).2 = TagByte ∧
    payload (Value.int8 x) = [(x % 256).toNat] ∧
    readByte (payload (Value.int8 x) ++ rest)
      = Outcome.ret (Value.uint8 (x % 256).toNat) none rest ∧
    (x % 256).toNat < 256 ∧
    ((0 ≤ x → (x % 256).toNat = x.toNat) ∧ (x < 0 → ((x % 256).toNat : Int) = x + 256)) ∧
    readShort (payload (Value.int16 x) ++ rest) = Outcome.ret (Value.int16 x) none rest ∧
    readInt (payload (Value.int32 x) ++ rest) = Outcome.ret (Value.int32 x) none rest ∧
    readLong (payload (Value.int64 x) ++ rest) = Outcome.ret (Value.int64 x) none rest := by
  have hp : payload (Value.int8 x) = [(x % 256).toNat] := by
    have : (x % 256).toNat % 256 = (x % 256).toNat := by omega
    simp [payload, encodeFactory, writeByte_eq, toUnsigned, this]
  have h16 : toUnsigned 16 x % 65536 = toUnsigned 16 x := by simp only [toUnsigned]; omega
  have h32 : toUnsigned 32 x % 4294967296 = toUnsigned 32 x := by simp only [toUnsigned]; omega
  have h64 : toUnsigned 64 x % 18446744073709551616 = toUnsigned 64 x := by
    simp only [toUnsigned]; omega
  refine ⟨by simp [encodeFactory], hp, ?_, by omega, ⟨by omega, by omega⟩, ?_, ?_, ?_⟩
  · rw [hp]; rfl
  · simp [payload, encodeFactory, writeShort, binaryWrite_eq, readShort_beBytes, h16,
      toSigned_toUnsigned_16 x (by omega) (by omega)]
  · simp [payload, encodeFactory, writeInt, binaryWrite_eq, readInt_beBytes, h32,
      toSigned_toUnsigned_32 x (by omega) (by omega)]
  · simp [payload, encodeFactory, writeLong, binaryWrite_eq, readLong_beBytes, h64,
      toSigned_toUnsigned_64 x (by omega) (by omega)]

/-- Claim C15, witness of the amended statement at `x = -1`. -/
theorem readByte_decodes_unsigned_witness :
    (-128 : Int) ≤ -1 ∧ (-1 : Int) < 128 ∧
    readByte (payload (Value.int8 (-1)) ++ [7])
      = Outcome.ret (Value.uint8 ((-1 : Int) % 256).toNat) none [7] :=
  ⟨by decide, by decide, (readByte_decodes_unsigned (-1) (by decide) (by decide) [7]).2.2.1⟩

/-- Claim C16: for every int16, int32 and int64 value, the writer chosen by
`encodeFactory` returns a nil error and writes exactly 2, 4 and 8 bytes, the
bytes of the value modulo `2^16`, `2^32`, `2^64` with the most significant
byte first, and `readShort`, `readInt`, `readLong` applied to those bytes
return the value with a nil error and leave the rest of the input unread. -/
theorem scalars_big_endian (x y z : Int) (w : Writer) (rest : Stream)
    (hx : -32768 ≤ x ∧ x < 32768) (hy : -2147483648 ≤ y ∧ y < 2147483648)
    (hz : -9223372036854775808 ≤ z ∧ z < 9223372036854775808) :
    (∃ wf, encodeFactory (Value.int16 x) = (some wf, TagShort) ∧
      wf w = (none, w ++ [(x % 65536).toNat / 256 % 256, (x % 65536).toNat % 256]) ∧
      readShort ([(x % 65536).toNat / 256 % 256, (x % 65536).toNat % 256] ++ rest)
        = Outcome.ret (Value.int16 x) none rest) ∧
    (∃ wf, encodeFactory (Value.int32 y) = (some wf, TagInt) ∧
      wf w = (none, w ++ [(y % 4294967296).toNat / 16777216 % 256,
        (y % 4294967296).toNat / 65536 % 256, (y % 4294967296).toNat / 256 % 256,
        (y % 4294967296).toNat % 256]) ∧
      readInt ([(y % 4294967296).toNat / 16777216 % 256,
        (y % 4294967296).toNat / 65536 % 256, (y % 4294967296).toNat / 256 % 256,
        (y % 4294967296).toNat % 256] ++ rest) = Outcome.ret (Value.int32 y) none rest) ∧
    (∃ wf, encodeFactory (Value.int64 z) = (some wf, TagLong) ∧
      wf w = (none, w ++ [(z % 18446744073709551616).toNat / 72057594037927936 % 256,
        (z % 18446744073709551616).toNat / 281474976710656 % 256,
        (z % 18446744073709551616).toNat / 1099511627776 % 256,
        (z % 18446744073709551616).toNat / 4294967296 % 256,
        (z % 18446744073709551616).toNat / 16777216 % 256,
        (z % 18446744073709551616).toNat / 65536 % 256,
        (z % 18446744073709551616).toNat / 256 % 256,
        (z % 18446744073709551616).toNat % 256]) ∧
      readLong ([(z % 18446744073709551616).toNat / 72057594037927936 % 256,
        (z % 18446744073709551616).toNat / 281474976710656 % 256,
        (z % 18446744073709551616).toNat / 1099511627776 % 256,
        (z % 18446744073709551616).toNat / 4294967296 % 256,
        (z % 18446744073709551616).toNat / 16777216 % 256,
        (z % 18446744073709551616).toNat / 65536 % 256,
        (z % 18446744073709551616).toNat / 256 % 256,
        (z % 18446744073709551616).toNat % 256] ++ rest)
        = Outcome.ret (Value.int64 z) none rest) := by
  have e16 : ∀ u : Nat, beBytes 2 u = [u / 256 % 256, u % 256] := by
    intro u; simp [beBytes]
  have e32 : ∀ u : Nat, beBytes 4 u
      = [u / 16777216 % 256, u / 65536 % 256, u / 256 % 256, u % 256] := by
    intro u; simp [beBytes]
  have e64 : ∀ u : Nat, beBytes 8 u
      = [u / 72057594037927936 % 256, u / 281474976710656 % 256, u / 1099511627776 % 256,
         u / 4294967296 % 256, u / 16777216 % 256, u / 65536 % 256, u / 256 % 256,
         u % 256] := by
    intro u; simp [beBytes]
  have u16 : toUnsigned 16 x = (x % 65536).toNat := by simp [toUnsigned]
  have u32 : toUnsigned 32 y = (y % 4294967296).toNat := by simp [toUnsigned]
  have u64 : toUnsigned 64 z = (z % 18446744073709551616).toNat := by simp [toUnsigned]
  have h16 : toUnsigned 16 x % 65536 = toUnsigned 16 x := by simp only [toUnsigned]; omega
  have h32 : toUnsigned 32 y % 4294967296 = toUnsigned 32 y := by simp only [toUnsigned]; omega
  have h64 : toUnsigned 64 z % 18446744073709551616 = toUnsigned 64 z := by
    simp only [toUnsigned]; omega
  refine ⟨⟨writeShort (toUnsigned 16 x), by simp [encodeFactory], ?_, ?_⟩,
    ⟨writeInt (toUnsigned 32 y), by simp [encodeFactory], ?_, ?_⟩,
    ⟨writeLong (toUnsigned 64 z), by simp [encodeFactory], ?_, ?_⟩⟩
  · rw [← u16, ← e16]; rfl
  · rw [← u16, ← e16, readShort_beBytes, h16, toSigned_toUnsigned_16 x hx.1 hx.2]
  · rw [← u32, ← e32]; rfl
  · rw [← u32, ← e32, readInt_beBytes, h32, toSigned_toUnsigned_32 y hy.1 hy.2]
  · rw [← u64, ← e64]; rfl
  · rw [← u64, ← e64, readLong_beBytes, h64, toSigned_toUnsigned_64 z hz.1 hz.2]

/-- Claim C16, witness: the values -2, 20 and -1 as Short, Int and Long. -/
theorem scalars_big_endian_witness :
    ((-32768 : Int) ≤ -2 ∧ (-2 : Int) < 32768) ∧
    ((-2147483648 : Int) ≤ 20 ∧ (20 : Int) < 2147483648) ∧
    ((-9223372036854775808 : Int) ≤ -1 ∧ (-1 : Int) < 9223372036854775808) ∧
    (∃ wf, encodeFactory (Value.int16 (-2)) = (some wf, TagShort) ∧
      wf [] = (none, [] ++ [((-2 : Int) % 65536).toNat / 256 % 256,
        ((-2 : Int) % 65536).toNat % 256]) ∧
      readShort ([((-2 : Int) % 65536).toNat / 256 % 256, ((-2 : Int) % 65536).toNat % 256]
        ++ [7]) = Outcome.ret (Value.int16 (-2)) none [7]) :=
  ⟨by decide, by decide, by decide,
   (scalars_big_endian (-2) 20 (-1) [] [7] (by decide) (by decide) (by decide)).1⟩


/-! ## The registry and the end of a Compound -/

/-- Claim C17: the tag constants are 0 to 12 in the order End, Byte, Short,
Int, Long, Float, Double, ByteArray, String, List, Compound, IntArray,
LongArray; `readFuncFactory` returns a decoder exactly for the ids 1 to 12, and
that decoder is the one of the shape the id names (for List and Compound the
container decoder that calls `readFuncFactory` again). -/
theorem tag_registry (d id : Nat) :
    (TagEnd = 0 ∧ TagByte = 1 ∧ TagShort = 2 ∧ TagInt = 3 ∧ TagLong = 4 ∧ TagFloat = 5 ∧
      TagDouble = 6 ∧ TagByteArray = 7 ∧ TagString = 8 ∧ TagList = 9 ∧ TagCompound = 10 ∧
      TagIntArray = 11 ∧ TagLongArray = 12) ∧
    ((readFuncFactory d id).isSome = true ↔ (1 ≤ id ∧ id ≤ 12)) ∧
    (readFuncFactory d 1 = some readByte ∧ readFuncFactory d 2 = some readShort ∧
      readFuncFactory d 3 = some readInt ∧ readFuncFactory d 4 = some readLong ∧
      readFuncFactory d 5 = some readFloat ∧ readFuncFactory d 6 = some readDouble ∧
      readFuncFactory d 7 = some readByteArray ∧ readFuncFactory d 8 = some readString ∧
      readFuncFactory (d + 1) 9 = some (readList (readFuncFactory d)) ∧
      readFuncFactory (d + 1) 10 = some (readCompound (readFuncFactory d)) ∧
      readFuncFactory d 11 = some readIntArray ∧ readFuncFactory d 12 = some readLongArray) := by
  refine ⟨⟨rfl, rfl, rfl, rfl, rfl, rfl, rfl, rfl, rfl, rfl, rfl, rfl, rfl⟩, ?_, ?_⟩
  · have h := readFuncFactory_eq_none_iff d id
    cases hf : readFuncFactory d id with
    | none =>
      have := h.mp hf
      simp only [Option.isSome_none, Bool.false_eq_true, false_iff]
      omega
    | some rf =>
      simp only [Option.isSome_some, true_iff]
      by_contra hc
      have : readFuncFactory d id = none := h.mpr (by omega)
      rw [hf] at this
      cases this
  · obtain ⟨a1, a2, a3, a4, a5, a6, a7, a8, a11, a12⟩ := readFuncFactory_leaf d
    exact ⟨a1, a2, a3, a4, a5, a6, a7, a8, rfl, rfl, a11, a12⟩

/-- Claim C19: at a field boundary, with `out` the fields decoded so far, a
next byte `t` without a decoder (`t = 0` or `t > 12`) makes the loop of
`readCompound` stop: it returns `out` with a nil error and has consumed that
one byte only, so the result for `t > 12` is the result for the End byte; in
particular `readCompound` on a stream starting with `t` returns the empty
Compound. -/
theorem readCompound_unknown_tag_ends (d k t : Nat) (rest : Stream) (out : Fields)
    (ht : t = 0 ∨ 12 < t) :
    readCompoundLoop (readFuncFactory d) (k + 1) (t :: rest) out
      = Outcome.ret (Value.compound out) none rest ∧
    readCompoundLoop (readFuncFactory d) (k + 1) (t :: rest) out
      = readCompoundLoop (readFuncFactory d) (k + 1) (0 :: rest) out ∧
    readCompound (readFuncFactory d) (t :: rest) = Outcome.ret (Value.compound []) none rest := by
  have hf : readFuncFactory d t = none := (readFuncFactory_eq_none_iff d t).mpr ht
  have h0 : readFuncFactory d 0 = none := (readFuncFactory_eq_none_iff d 0).mpr (Or.inl rfl)
  have e1 : ∀ o, readCompoundLoop (readFuncFactory d) (k + 1) (t :: rest) o
      = Outcome.ret (Value.compound o) none rest := by
    intro o; simp [readCompoundLoop, readByte, hf]
  have e2 : readCompoundLoop (readFuncFactory d) (k + 1) (0 :: rest) out
      = Outcome.ret (Value.compound out) none rest := by
    simp [readCompoundLoop, readByte, h0]
  refine ⟨e1 out, by rw [e1 out, e2], ?_⟩
  simp [readCompound, readCompoundLoop, readByte, hf]

/-- Claim C19, witness: the byte 0x0D ends the Compound as the End byte does. -/
theorem readCompound_unknown_tag_ends_witness :
    ((13 : Nat) = 0 ∨ 12 < 13) ∧
    readCompound (readFuncFactory 5) [13, 1, 2] = Outcome.ret (Value.compound []) none [1, 2] :=
  ⟨by decide, (readCompound_unknown_tag_ends 5 0 13 [1, 2] [] (by decide)).2.2⟩

/-! ## Failure and termination of `Parse` -/

theorem readCompoundLoop_step (d k : Nat) (s : Stream) (out : Fields) (hs : s.length ≤ d) :
    (∃ rest, readCompoundLoop (readFuncFactory d) (k + 1) s out
        = Outcome.ret (Value.compound out) none rest) ∨
    readCompoundLoop (readFuncFactory d) (k + 1) s out = Outcome.panic ∨
    ∃ name value s', s'.length + 3 ≤ s.length ∧
      readCompoundLoop (readFuncFactory d) (k + 1) s out
        = readCompoundLoop (readFuncFactory d) k s' (Fields.set out name value) := by
  cases s with
  | nil => exact Or.inl ⟨[], by simp [readCompoundLoop, readByte]⟩
  | cons b t =>
    simp only [List.length_cons] at hs
    simp only [readCompoundLoop, readByte]
    rcases readFuncFactory_agree d d (le_refl d) b with ⟨hf, _⟩ | ⟨rf, _, hf, _, hfg⟩
    · exact Or.inl ⟨t, by simp only [hf]⟩
    · simp only [hf]
      have hfg' : ∀ s : Stream, s.length < d → rf s = rf s ∧ (rf s).Within s :=
        fun s hs => ⟨rfl, (hfg s hs).2⟩
      obtain ⟨-, hin, hok⟩ := compoundWrapRead_agree rf rf d hfg' t (by omega)
      cases hc : compoundWrapRead rf t with
      | ret fv e r2 =>
        cases e with
        | some e => exact Or.inl ⟨r2, rfl⟩
        | none =>
          obtain ⟨hlen, name, value, rfl⟩ := hok fv r2 hc
          exact Or.inr (Or.inr ⟨name, value, r2, by simp only [List.length_cons]; omega, rfl⟩)
      | panic => exact Or.inr (Or.inl rfl)
      | stuck => rw [hc] at hin; exact absurd hin (by simp [Outcome.Within])

/-- Claim C18: on an input where `Parse` does not panic (no decoder meets a
negative declared length), `Parse` returns an error exactly when the first byte
is missing or is not 0x0A or the root name cannot be read in full, and it then
returns the nil Compound; in every other case it returns a Compound with a nil
error.  The reason is that `readCompound` returns a Compound with a nil error
on every input on which it does not panic. -/
theorem Parse_error_iff (s : Stream) (hp : Parse s ≠ Outcome.panic) :
    ((∃ co e rest, Parse s = Outcome.ret co (some e) rest) ↔
      (s.head? ≠ some TagCompound ∨ rootNameReadable s = false)) ∧
    ((s.head? ≠ some TagCompound ∨ rootNameReadable s = false) →
      ∃ e rest, Parse s = Outcome.ret none (some e) rest) ∧
    (¬ (s.head? ≠ some TagCompound ∨ rootNameReadable s = false) →
      ∃ c rest, Parse s = Outcome.ret (some c) none rest) ∧
    (∀ (d : Nat) (s' : Stream), s'.length ≤ d →
      (∃ c rest, readCompound (readFuncFactory d) s'
          = Outcome.ret (Value.compound c) none rest) ∨
        readCompound (readFuncFactory d) s' = Outcome.panic) := by
  have herr : (s.head? ≠ some TagCompound ∨ rootNameReadable s = false) →
      ∃ e rest, Parse s = Outcome.ret none (some e) rest := by
    intro h
    by_cases hh : s.head? = some TagCompound
    · match s, hh with
      | b :: t, hh =>
        have hb : b = TagCompound := by simpa using hh
        subst hb
        have hr : rootNameReadable (TagCompound :: t) = false := by
          rcases h with h | h
          · exact absurd rfl h
          · exact h
        obtain ⟨rest, e⟩ := ParseAt_name_short (TagCompound :: t).length t hr
        exact ⟨_, rest, e⟩
    · exact ⟨_, _, ParseAt_not_compound s.length s hh⟩
  have hok : ¬ (s.head? ≠ some TagCompound ∨ rootNameReadable s = false) →
      ∃ c rest, Parse s = Outcome.ret (some c) none rest := by
    intro h
    have hh : s.head? = some TagCompound := by
      by_contra hc; exact h (Or.inl hc)
    have hr : rootNameReadable s = true := by
      cases hrr : rootNameReadable s with
      | true => rfl
      | false => exact absurd (Or.inr hrr) h
    match s, hh with
    | b :: t, hh =>
      have hb : b = TagCompound := by simpa using hh
      subst hb
      rcases ParseAt_name_ok (TagCompound :: t).length t (by simp) hr with ⟨c, rest, e, -⟩ | e
      · exact ⟨c, rest, e⟩
      · exact absurd e hp
  refine ⟨⟨?_, ?_⟩, herr, hok, ?_⟩
  · rintro ⟨co, e, rest, he⟩
    by_contra hc
    obtain ⟨c, rest', he'⟩ := hok hc
    rw [he] at he'
    cases he'
  · intro h
    obtain ⟨e, rest, he⟩ := herr h
    exact ⟨none, e, rest, he⟩
  · intro d s' hs'
    rcases (readCompound_agree _ _ d (readFuncFactory_agree d d (le_refl d)) s' hs').2
      with ⟨c, rest, e, -⟩ | e
    · exact Or.inl ⟨c, rest, e⟩
    · exact Or.inr e

/-- Claim C18, witness: the four bytes `0A 00 00 00` do not make `Parse`
panic, their root name is readable, and `Parse` returns a Compound. -/
theorem Parse_error_iff_witness :
    Parse [10, 0, 0, 0] ≠ Outcome.panic ∧
    ¬ (([10, 0, 0, 0] : Stream).head? ≠ some TagCompound ∨
        rootNameReadable [10, 0, 0, 0] = false) ∧
    ∃ c rest, Parse [10, 0, 0, 0] = Outcome.ret (some c) none rest :=
  ⟨by rw [show Parse [10, 0, 0, 0] = Outcome.ret (some []) none [] from rfl]; simp,
   by decide,
   (Parse_error_iff [10, 0, 0, 0]
      (by rw [show Parse [10, 0, 0, 0] = Outcome.ret (some []) none [] from rfl]; simp)).2.2.1
      (by decide)⟩

/-- Claim C20: decoding terminates on every finite input.  A nesting budget
equal to the number of input bytes is never exhausted, because a nested decoder
is entered only after bytes have been consumed: `Parse` gives the same result
with every larger budget, is never `stuck`, and leaves no more input than it
was given; the same holds for `readCompound` and `readList` at every depth.
Every iteration of the loop of `readCompound` either leaves the loop or
continues on an input at least three bytes shorter; the loop of `readList` is
a recursion on the declared count. -/
theorem Parse_terminates (s : Stream) (d : Nat) (hd : s.length ≤ d) :
    ParseAt d s = Parse s ∧ Parse s ≠ Outcome.stuck ∧ (Parse s).Within s ∧
    (∀ s' : Stream, s'.length ≤ d →
      (readCompound (readFuncFactory d) s').Within s' ∧
      (readList (readFuncFactory d) s').Within s' ∧
      readCompound (readFuncFactory (d + 1)) s' = readCompound (readFuncFactory d) s' ∧
      readList (readFuncFactory (d + 1)) s' = readList (readFuncFactory d) s') ∧
    (∀ (k : Nat) (s' : Stream) (out : Fields), s'.length ≤ d →
      (∃ rest, readCompoundLoop (readFuncFactory d) (k + 1) s' out
          = Outcome.ret (Value.compound out) none rest) ∨
      readCompoundLoop (readFuncFactory d) (k + 1) s' out = Outcome.panic ∨
      ∃ name value s'', s''.length + 3 ≤ s'.length ∧
        readCompoundLoop (readFuncFactory d) (k + 1) s' out
          = readCompoundLoop (readFuncFactory d) k s'' (Fields.set out name value)) := by
  have hw : (Parse s).Within s := by
    by_cases hh : s.head? = some TagCompound
    · match s, hh with
      | b :: t, hh =>
        have hb : b = TagCompound := by simpa using hh
        subst hb
        cases hr : rootNameReadable (TagCompound :: t) with
        | false =>
          have hs : ∃ v e rest, readString t = Outcome.ret v (some e) rest := by
            apply readString_short
            intro b0 b1 tl ht hle
            subst ht
            simp [rootNameReadable, hle] at hr
          obtain ⟨v, e, rest, hs⟩ := hs
          have hin := readString_within t
          rw [hs] at hin
          simp only [Outcome.Within] at hin
          have : Parse (TagCompound :: t) = Outcome.ret none (some Error.parseNil) rest := by
            simp [Parse, ParseAt, readByte, compoundWrapRead, hs]
          rw [this]
          simp only [Outcome.Within, List.length_cons]; omega
        | true =>
          rcases ParseAt_name_ok (TagCompound :: t).length t (by simp) hr
            with ⟨c, rest, e, hl⟩ | e
          · rw [Parse, e]; simp only [Outcome.Within, List.length_cons]; omega
          · rw [Parse, e]; trivial
    · rw [Parse, ParseAt_not_compound s.length s hh]
      simp only [Outcome.Within, List.length_drop]; omega
  refine ⟨ParseAt_budget d s hd, ?_, hw, ?_, ?_⟩
  · intro h; rw [h] at hw; exact hw
  · intro s' hs'
    have h0 := readFuncFactory_agree_succ d
    have h1 : Agree (readFuncFactory (d + 1)) (readFuncFactory d) d := by
      intro id
      rcases h0 id with ⟨hf, hg⟩ | ⟨rf, rg, hf, hg, hfg⟩
      · exact Or.inl ⟨hg, hf⟩
      · exact Or.inr ⟨rg, rf, hg, hf, fun t ht =>
          ⟨(hfg t ht).1.symm, by rw [← (hfg t ht).1]; exact (hfg t ht).2⟩⟩
    exact ⟨readCompound_within _ _ d h0 s' hs', (readList_agree _ _ d h0 s' hs').2,
      (readCompound_agree _ _ d h1 s' hs').1, (readList_agree _ _ d h1 s' hs').1⟩
  · intro k s' out hs'
    exact readCompoundLoop_step d k s' out hs'

/-- Claim C20, witness: on a five-byte input the budgets 5 and 9 give the
same result, a return. -/
theorem Parse_terminates_witness :
    ([10, 0, 0, 10, 0] : Stream).length ≤ 9 ∧
    ParseAt 9 [10, 0, 0, 10, 0] = Parse [10, 0, 0, 10, 0] ∧
    Parse [10, 0, 0, 10, 0] ≠ Outcome.stuck :=
  ⟨by decide, (Parse_terminates [10, 0, 0, 10, 0] 9 (by decide)).1,
    (Parse_terminates [10, 0, 0, 10, 0] 9 (by decide)).2.1⟩

end NBT
